import Mathlib

/-!
Verification of the transaction categorization and correction-learning engine
of the `lark_wallet` repository, as a shallow embedding in Lean 4.

Python strings are modelled as `List Char` (`Str`), so that every operation
of the source (slicing, trimming, substring tests) is a structurally
recursive, kernel-computable Lean function.  Python `dict`s (which iterate
in insertion order) are modelled as association lists whose keys are kept
in first-insertion order, and `defaultdict` increments as `bump*` functions.
Python's stable `list.sort` / `sorted` is modelled by `List.insertionSort`
with a total, transitive comparison relation: a stable sort with respect to
a total preorder is unique, so any stable sort models CPython's Timsort
faithfully.  `list(set(...))` (whose iteration order varies with
CPython's per-process hash seed) is modelled twice: as first-occurrence
deduplication (`dedupKeepFirst`) where only the set's contents matter,
and with the enumeration as an explicit parameter (the `_with`-suffixed
miner) where run-to-run order matters.
-/

/-- Python `str` modelled as a list of unicode scalar values. -/
abbrev Str := List Char

/-- Python `str.strip()`: drop whitespace from both ends. -/
def trimStr (s : Str) : Str :=
  ((s.dropWhile Char.isWhitespace).reverse.dropWhile Char.isWhitespace).reverse

/-- Helper for `subStr`: does `needle` occur at the head of `hay`? -/
def headMatch : Str → Str → Bool
  | [], _ => true
  | _ :: _, [] => false
  | a :: as, b :: bs => a == b && headMatch as bs

/-- Python `needle in hay` on strings: contiguous-substring test. -/
def subStr (needle hay : Str) : Bool :=
  match hay with
  | [] => headMatch needle []
  | _ :: rest => headMatch needle hay || subStr needle rest

/-- Python `note.split('-', 1)` restricted to the case `'-' in note`:
returns `some (before, after)` for the first `'-'`, `none` when there is
no dash. -/
def splitDash : Str → Option (Str × Str)
  | [] => none
  | c :: rest =>
    if c = '-' then some ([], rest)
    else (splitDash rest).map (fun p => (c :: p.1, p.2))

/-- Strategy 1 of `backfill_counterparty.extract_counterparty_from_note`:
when the note contains `'-'`, split at the first occurrence and return
the stripped second part when it is non-empty. -/
def dashCandidate (note : Str) : Option Str :=
  match splitDash note with
  | some p => let candidate := trimStr p.2
              if candidate ≠ [] then some candidate else none
  | none => none

/-- `backfill_counterparty.extract_counterparty_from_note`.  The source
checks `if not note` before stripping, then strips both arguments, tries
the first-`'-'` split (strategy 1, `dashCandidate`), then falls back to
returning the whole stripped note when it differs from the stripped
category, and `None` otherwise. -/
def extract_counterparty_from_note (note category : Str) : Option Str :=
  if note = [] then none
  else
    let note := trimStr note
    let category := trimStr category
    match dashCandidate note with
    | some c => some c
    | none => if note ≠ category then some note else none

/-- One row of the rule CSV as loaded by `RuleMatcher.load_rules` in
`scripts/fill_by_rules.py` (enabled rows only; the `confidence` column is
carried along but never consulted by matching). -/
structure CsvRule where
  keyword : Str
  category : Str
  purpose : Str
  subcat : Str
  confidence : Str
deriving DecidableEq, Repr

/-- The per-rule test of `RuleMatcher.match`: the rule's category must
equal the (stripped) input category exactly and the rule's keyword must be
a substring of the (stripped) note. -/
def ruleMatches (note category : Str) (r : CsvRule) : Bool :=
  r.category == category && subStr r.keyword note

/-- `RuleMatcher.match` of `scripts/fill_by_rules.py` (the copy in
`scripts/validate_rules.py` is identical): strip both inputs, scan the
enabled rules in stored order, return the `(purpose, subcat)` of the first
rule that matches, or `(None, None)`. -/
def RuleMatcher.matchRule (rules : List CsvRule) (note category : Str) :
    Option Str × Option Str :=
  let note := trimStr note
  let category := trimStr category
  match rules.find? (ruleMatches note category) with
  | some rule => (some rule.purpose, some rule.subcat)
  | none => (none, none)

example : extract_counterparty_from_note "交通-地铁".data "交通".data = some "地铁".data := by
  decide

example : extract_counterparty_from_note "星巴克".data "消费".data = some "星巴克".data := by
  decide

example : extract_counterparty_from_note "消费".data "消费".data = none := by
  decide

/-! ### Rule Miner (`scripts/extract_rules.py`) -/

/-- First-occurrence deduplication, modelling Python's `list(set(...))`
in `extract_keywords` as ONE possible enumeration (CPython's set
iteration order varies with the per-process hash seed; this fixed order
is adequate wherever only the set's contents matter, and the
enumeration-parametric miner `extract_rules_with` below captures the
order variability where it matters). -/
def dedupKeepFirstAux (seen : List Str) : List Str → List Str
  | [] => []
  | x :: xs =>
    if x ∈ seen then dedupKeepFirstAux seen xs
    else x :: dedupKeepFirstAux (x :: seen) xs

/-- First-occurrence deduplication (see `dedupKeepFirstAux`). -/
def dedupKeepFirst (l : List Str) : List Str :=
  dedupKeepFirstAux [] l

/-- `extract_rules.extract_keywords`: strip the note; the whole note is a
candidate when its length is at most 6; the 3-, 4- and 5-character
prefixes are candidates when the note is long enough; deduplicate. -/
def extract_keywords (note : Str) : List Str :=
  let note := trimStr note
  if note = [] then []
  else
    let keywords :=
      (if note.length ≤ 6 then [note] else []) ++
        ([3, 4, 5].filterMap fun n =>
          if n ≤ note.length then some (note.take n) else none)
    dedupKeepFirst keywords

/-- A `(keyword, category)` key of the miner's `rule_stats` table. -/
abbrev RuleKey := Str × Str

/-- A `(purpose, subcat)` outcome counted by the miner. -/
abbrev Outcome := Str × Str

/-- Increment an insertion-ordered counter map at `k` (Python
`defaultdict(int)`: `m[k] += 1`, appending a fresh key at the end). -/
def bumpOutcome (m : List (Outcome × Nat)) (k : Outcome) : List (Outcome × Nat) :=
  if m.any (fun e => e.1 = k) then
    m.map (fun e => if e.1 = k then (e.1, e.2 + 1) else e)
  else m ++ [(k, 1)]

/-- Increment the nested `rule_stats[rule_key][output]` counter
(`defaultdict(lambda: defaultdict(int))`). -/
def bumpStats (stats : List (RuleKey × List (Outcome × Nat))) (k : RuleKey)
    (o : Outcome) : List (RuleKey × List (Outcome × Nat)) :=
  if stats.any (fun e => e.1 = k) then
    stats.map (fun e => if e.1 = k then (e.1, bumpOutcome e.2 o) else e)
  else stats ++ [(k, bumpOutcome [] o)]

/-- One transaction record as consumed by the miner, fields already
shape-normalized to strings (the source's `parse_text` applied to the
`备注`/`细类` cells and `str(...)` to the rest). -/
structure TxRecord where
  inOut : Str      -- 收支
  note : Str       -- 备注
  category : Str   -- 分类
  purpose : Str    -- 支出目的
  subcat : Str     -- 细类
deriving DecidableEq, Repr

/-- The per-record body of the accumulation loop of `extract_rules`:
expense records only, strip the four text fields, skip incomplete
records, and bump `rule_stats[(keyword, category)][(purpose, subcat)]`
for every extracted keyword. -/
def ruleStatsStep (stats : List (RuleKey × List (Outcome × Nat))) (r : TxRecord) :
    List (RuleKey × List (Outcome × Nat)) :=
  if r.inOut ≠ "支出".data then stats
  else
    let note := trimStr r.note
    let category := trimStr r.category
    let purpose := trimStr r.purpose
    let subcat := trimStr r.subcat
    if note = [] ∨ category = [] ∨ purpose = [] ∨ subcat = [] then stats
    else
      (extract_keywords note).foldl
        (fun stats keyword => bumpStats stats (keyword, category) (purpose, subcat))
        stats

/-- The `rule_stats` table after the accumulation loop of
`extract_rules`. -/
def ruleStats (records : List TxRecord) : List (RuleKey × List (Outcome × Nat)) :=
  records.foldl ruleStatsStep []

/-- Python `max(outputs.items(), key=lambda x: x[1])`: the first element
with the maximal count (`max` keeps the earliest of equals). -/
def argmaxFirst : List (Outcome × Nat) → Option (Outcome × Nat)
  | [] => none
  | x :: xs => some (xs.foldl (fun best y => if best.2 < y.2 then y else best) x)

/-- A mined rule (`rules.append({...})` in `extract_rules`); `confidence`
is the exact rational `count / total`. -/
structure MinedRule where
  keyword : Str
  category : Str
  purpose : Str
  subcat : Str
  confidence : ℚ
  count : Nat
  total : Nat
deriving DecidableEq, Repr

/-- The rule-construction loop of `extract_rules`: for each
`(keyword, category)` key in first-encounter order, take the most common
outcome, drop it when its count is below `min_count`, and record
`confidence = count / total`. -/
def candidateRules (records : List TxRecord) (min_count : Nat) : List MinedRule :=
  (ruleStats records).filterMap fun e =>
    match argmaxFirst e.2 with
    | none => none
    | some oc =>
      if oc.2 < min_count then none
      else
        -- `total = sum(outputs.values())`; `confidence = count / total` as
        -- an exact rational (`mkRat n d = n / d`, kernel-computable,
        -- unlike `Rat.div`).
        some { keyword := e.1.1, category := e.1.2, purpose := oc.1.1,
               subcat := oc.1.2,
               confidence := mkRat oc.2 ((e.2.map (fun x => x.2)).sum),
               count := oc.2, total := (e.2.map (fun x => x.2)).sum }

/-- The comparison under `rules.sort(key=lambda x: (x['confidence'],
x['count']), reverse=True)`: `a` may precede `b` iff `a`'s key pair is
lexicographically at least `b`'s. -/
def ruleLe (a b : MinedRule) : Prop :=
  b.confidence < a.confidence ∨ (b.confidence = a.confidence ∧ b.count ≤ a.count)

instance : DecidableRel ruleLe := fun a b => by
  unfold ruleLe; infer_instance

instance : IsTotal MinedRule ruleLe where
  total a b := by
    unfold ruleLe
    rcases lt_trichotomy a.confidence b.confidence with h | h | h
    · exact Or.inr (Or.inl h)
    · rcases Nat.le_total b.count a.count with hc | hc
      · exact Or.inl (Or.inr ⟨h.symm, hc⟩)
      · exact Or.inr (Or.inr ⟨h, hc⟩)
    · exact Or.inl (Or.inl h)

instance : IsTrans MinedRule ruleLe where
  trans a b c hab hbc := by
    unfold ruleLe at *
    rcases hab with h1 | ⟨h1, h1c⟩ <;> rcases hbc with h2 | ⟨h2, h2c⟩
    · exact Or.inl (h2.trans h1)
    · exact Or.inl (h2 ▸ h1)
    · exact Or.inl (h1 ▸ h2)
    · exact Or.inr ⟨h1 ▸ h2, Nat.le_trans h2c h1c⟩

/-- The candidate rules in sorted order (stable descending sort on
`(confidence, count)`), before truncation. -/
def sortedRules (records : List TxRecord) (min_count : Nat) : List MinedRule :=
  List.insertionSort ruleLe (candidateRules records min_count)

/-- `extract_rules.extract_rules` (its pure core, after records have been
fetched): accumulate statistics, build candidate rules, sort them stably
by `(confidence, count)` descending and truncate to `max_rules`. -/
def extract_rules (records : List TxRecord) (min_count max_rules : Nat) :
    List MinedRule :=
  (sortedRules records min_count).take max_rules

/-- Writing a mined rule to the CSV that `RuleMatcher.load_rules` later
reads back (all rows written with `enabled = TRUE`); the formatted
percentage string in the `confidence` column is irrelevant to matching
and modelled as empty. -/
def mineToCsv (r : MinedRule) : CsvRule :=
  { keyword := r.keyword, category := r.category, purpose := r.purpose,
    subcat := r.subcat, confidence := [] }

example : extract_keywords "午餐-楼下面馆".data =
    ["午餐-".data, "午餐-楼".data, "午餐-楼下".data] := by decide

/-! ### Bayesian classifier (`src/utils/expense_classifier.py`) -/

/-- One character of the CJK Unified Ideographs range, as matched by the
source's `[一-鿿]` regular expression. -/
def isCjkChar (c : Char) : Bool :=
  0x4e00 ≤ c.toNat && c.toNat ≤ 0x9fff

/-- ASCII letter-or-digit after `str.lower()`, as matched by
`[a-zA-Z0-9]+` on the lowered text. -/
def isAsciiAlnum (c : Char) : Bool :=
  ('a' ≤ c && c ≤ 'z') || ('0' ≤ c && c ≤ '9')

/-- Maximal runs matched by `re.findall(r'[a-zA-Z0-9]+', text)`; `run`
carries the current run reversed. -/
def asciiRunsAux (run : Str) : Str → List Str
  | [] => if run = [] then [] else [run.reverse]
  | c :: rest =>
    if isAsciiAlnum c then asciiRunsAux (c :: run) rest
    else if run = [] then asciiRunsAux [] rest
    else run.reverse :: asciiRunsAux [] rest

/-- `ExpenseClassifier.tokenize`: every CJK character of the text as a
one-character token, followed by the maximal ASCII alphanumeric runs of
the lowercased text. -/
def tokenize (text : Str) : List Str :=
  if text = [] then []
  else
    ((text.filter isCjkChar).map (fun c => [c])) ++
      asciiRunsAux [] (text.map Char.toLower)

/-- An insertion-ordered string-keyed counter (Python `defaultdict(int)`
or `Counter`). -/
abbrev CountMap := List (Str × Nat)

/-- An insertion-ordered nested counter
(`defaultdict(lambda: defaultdict(int))` / `defaultdict(Counter)`). -/
abbrev NestedCountMap := List (Str × CountMap)

/-- `m[k] += 1` on an insertion-ordered counter. -/
def bumpCount (m : CountMap) (k : Str) : CountMap :=
  if m.any (fun e => e.1 = k) then
    m.map (fun e => if e.1 = k then (e.1, e.2 + 1) else e)
  else m ++ [(k, 1)]

/-- `m[k][t] += 1` on a nested insertion-ordered counter. -/
def bumpNested (m : NestedCountMap) (k t : Str) : NestedCountMap :=
  if m.any (fun e => e.1 = k) then
    m.map (fun e => if e.1 = k then (e.1, bumpCount e.2 t) else e)
  else m ++ [(k, bumpCount [] t)]

/-- `vocab.add(t)` on a first-insertion-ordered set. -/
def addVocab (v : List Str) (t : Str) : List Str :=
  if t ∈ v then v else v ++ [t]

/-- `m.get(k, 0)` / `m[k]` read access on a counter. -/
def lookupCount (m : CountMap) (k : Str) : Nat :=
  match m.find? (fun e => e.1 = k) with
  | some e => e.2
  | none => 0

/-- `k in m` plus `m[k]` on a nested counter. -/
def lookupNested (m : NestedCountMap) (k : Str) : Option CountMap :=
  (m.find? (fun e => e.1 = k)).map (fun e => e.2)

/-- `sum(m.values())`. -/
def sumCounts (m : CountMap) : Nat :=
  (m.map (fun e => e.2)).sum

/-- A training record as consumed by `ExpenseClassifier.train` (the dict
with keys 备注/分类/支出目的/细类/收支). -/
structure TrainRecord where
  note : Str       -- 备注
  category : Str   -- 分类
  purpose : Str    -- 支出目的
  subcat : Str     -- 细类
  inOut : Str      -- 收支
deriving DecidableEq, Repr

/-- The state of `ExpenseClassifier` after `__init__`/`train`. -/
structure ExpenseClassifier where
  purpose_word_counts : NestedCountMap
  purpose_total_counts : CountMap
  purpose_doc_counts : CountMap
  purpose_vocab : List Str
  subcat_word_counts : NestedCountMap
  subcat_total_counts : CountMap
  subcat_doc_counts : CountMap
  subcat_vocab : List Str
  category_purpose_map : NestedCountMap
  category_subcat_map : NestedCountMap
  total_docs : Nat
  is_trained : Bool
deriving Repr

/-- `ExpenseClassifier.__init__`. -/
def emptyClassifier : ExpenseClassifier :=
  { purpose_word_counts := [], purpose_total_counts := [],
    purpose_doc_counts := [], purpose_vocab := [],
    subcat_word_counts := [], subcat_total_counts := [],
    subcat_doc_counts := [], subcat_vocab := [],
    category_purpose_map := [], category_subcat_map := [],
    total_docs := 0, is_trained := false }

/-- The loop body of `ExpenseClassifier.train` for one expense record. -/
def trainOne (C : ExpenseClassifier) (r : TrainRecord) : ExpenseClassifier :=
  let note := trimStr r.note
  let category := trimStr r.category
  let purpose := trimStr r.purpose
  let subcat := trimStr r.subcat
  if note = [] then C
  else
    let tokens := tokenize note
    let C :=
      if purpose ≠ [] then
        let C := { C with purpose_doc_counts := bumpCount C.purpose_doc_counts purpose }
        let C := tokens.foldl
          (fun C t =>
            { C with
              purpose_word_counts := bumpNested C.purpose_word_counts purpose t,
              purpose_total_counts := bumpCount C.purpose_total_counts purpose,
              purpose_vocab := addVocab C.purpose_vocab t }) C
        if category ≠ [] then
          { C with category_purpose_map := bumpNested C.category_purpose_map category purpose }
        else C
      else C
    if subcat ≠ [] then
      let C := { C with subcat_doc_counts := bumpCount C.subcat_doc_counts subcat }
      let C := tokens.foldl
        (fun C t =>
          { C with
            subcat_word_counts := bumpNested C.subcat_word_counts subcat t,
            subcat_total_counts := bumpCount C.subcat_total_counts subcat,
            subcat_vocab := addVocab C.subcat_vocab t }) C
      if category ≠ [] then
        { C with category_subcat_map := bumpNested C.category_subcat_map category subcat }
      else C
    else C

/-- `ExpenseClassifier.train` on a fresh classifier: keep expense records
only; when there are none, return untrained; otherwise set `total_docs`
to the number of expense records (note: including those whose note is
empty), run the training loop, and mark the classifier trained. -/
def ExpenseClassifier.train (records : List TrainRecord) : ExpenseClassifier :=
  let expense_records := records.filter (fun r => r.inOut = "支出".data)
  if expense_records = [] then emptyClassifier
  else
    let C := { emptyClassifier with total_docs := expense_records.length }
    { expense_records.foldl trainOne C with is_trained := true }

/-- The score `prior + Σ log-likelihood` computed for one purpose class in
`ExpenseClassifier.predict_purpose` (floating point in the source,
idealized over `ℝ`). -/
noncomputable def purposeScore (C : ExpenseClassifier) (category : Option Str)
    (tokens : List Str) (purpose : Str) : ℝ :=
  let base : ℝ :=
    Real.log ((lookupCount C.purpose_doc_counts purpose : ℝ) / (C.total_docs : ℝ))
  let prior : ℝ :=
    match category with
    | none => base
    | some cat =>
      if cat = [] then base
      else
        match lookupNested C.category_purpose_map cat with
        | none => base
        | some inner =>
          let category_total := sumCounts inner
          let category_prior : ℝ :=
            if 0 < category_total then
              (lookupCount inner purpose : ℝ) / (category_total : ℝ)
            else 0
          if 0 < category_prior then
            Real.log (category_prior * 0.7 +
              (lookupCount C.purpose_doc_counts purpose : ℝ) / (C.total_docs : ℝ) * 0.3)
          else base
  let vocab_size : Nat := C.purpose_vocab.length
  let likelihood : ℝ :=
    (tokens.map (fun t =>
      Real.log
        (((lookupCount ((lookupNested C.purpose_word_counts purpose).getD []) t : ℝ) + 1) /
          ((lookupCount C.purpose_total_counts purpose : ℝ) + (vocab_size : ℝ))))).sum
  prior + likelihood

/-- The score computed for one subcat class in
`ExpenseClassifier.predict_subcat`. -/
noncomputable def subcatScore (C : ExpenseClassifier) (category : Option Str)
    (tokens : List Str) (subcat : Str) : ℝ :=
  let base : ℝ :=
    Real.log ((lookupCount C.subcat_doc_counts subcat : ℝ) / (C.total_docs : ℝ))
  let prior : ℝ :=
    match category with
    | none => base
    | some cat =>
      if cat = [] then base
      else
        match lookupNested C.category_subcat_map cat with
        | none => base
        | some inner =>
          let category_total := sumCounts inner
          let category_prior : ℝ :=
            if 0 < category_total then
              (lookupCount inner subcat : ℝ) / (category_total : ℝ)
            else 0
          if 0 < category_prior then
            Real.log (category_prior * 0.7 +
              (lookupCount C.subcat_doc_counts subcat : ℝ) / (C.total_docs : ℝ) * 0.3)
          else base
  let vocab_size : Nat := C.subcat_vocab.length
  let likelihood : ℝ :=
    (tokens.map (fun t =>
      Real.log
        (((lookupCount ((lookupNested C.subcat_word_counts subcat).getD []) t : ℝ) + 1) /
          ((lookupCount C.subcat_total_counts subcat : ℝ) + (vocab_size : ℝ))))).sum
  prior + likelihood

/-- The comparison under `sorted(scores.items(), key=lambda x: x[1],
reverse=True)`: descending by score, ties kept in dict order (a stable
descending sort). -/
def scoreDescRel (a b : Str × ℝ) : Prop := b.2 ≤ a.2

noncomputable instance : DecidableRel scoreDescRel := fun a b => by
  unfold scoreDescRel; infer_instance

instance : IsTotal (Str × ℝ) scoreDescRel where
  total a b := le_total b.2 a.2

instance : IsTrans (Str × ℝ) scoreDescRel where
  trans _ _ _ hab hbc := le_trans hbc hab

/-- The softmax step of `predict_purpose`/`predict_subcat` applied to the
already-truncated `sorted_scores` list: subtract the top score, map
`exp`, divide by the total.  The source indexes `sorted_scores[0]`, which
presupposes a non-empty list (`top_k ≥ 1`); the `[]` branch here is the
value for the vacuous case the source never reaches with its defaults. -/
noncomputable def softmaxTop : List (Str × ℝ) → List (Str × ℝ)
  | [] => []
  | top :: rest =>
    let max_score := top.2
    let exp_scores := (top :: rest).map (fun x => (x.1, Real.exp (x.2 - max_score)))
    let total_exp := (exp_scores.map (fun x => x.2)).sum
    exp_scores.map (fun x => (x.1, x.2 / total_exp))

/-- `ExpenseClassifier.predict_purpose`: guard on `is_trained` and a
non-empty class table, tokenize (empty token list means no prediction),
score every class in `purpose_doc_counts` order, sort stably by score
descending, keep the top `top_k` and convert them to softmax
probabilities. -/
noncomputable def ExpenseClassifier.predict_purpose (C : ExpenseClassifier)
    (note : Str) (category : Option Str) (top_k : Nat) : List (Str × ℝ) :=
  if C.is_trained = false ∨ C.purpose_doc_counts = [] then []
  else
    let tokens := tokenize note
    if tokens = [] then []
    else
      let scores : List (Str × ℝ) :=
        C.purpose_doc_counts.map (fun e => (e.1, purposeScore C category tokens e.1))
      softmaxTop ((List.insertionSort scoreDescRel scores).take top_k)

/-- `ExpenseClassifier.predict_subcat` (same shape as `predict_purpose`
over the subcat tables). -/
noncomputable def ExpenseClassifier.predict_subcat (C : ExpenseClassifier)
    (note : Str) (category : Option Str) (top_k : Nat) : List (Str × ℝ) :=
  if C.is_trained = false ∨ C.subcat_doc_counts = [] then []
  else
    let tokens := tokenize note
    if tokens = [] then []
    else
      let scores : List (Str × ℝ) :=
        C.subcat_doc_counts.map (fun e => (e.1, subcatScore C category tokens e.1))
      softmaxTop ((List.insertionSort scoreDescRel scores).take top_k)

/-- The result dict of `ExpenseClassifier.predict`. -/
structure PredictResult where
  purpose : Option Str
  subcat : Option Str
  purpose_confidence : ℝ
  subcat_confidence : ℝ

/-- `ExpenseClassifier.predict`: take the top-1 prediction for each field
and accept it only when its softmax probability reaches
`confidence_threshold` (default 0.3 at the call sites). -/
noncomputable def ExpenseClassifier.predict (C : ExpenseClassifier) (note : Str)
    (category : Option Str) (confidence_threshold : ℝ) : PredictResult :=
  let r0 : PredictResult :=
    { purpose := none, subcat := none,
      purpose_confidence := 0, subcat_confidence := 0 }
  let r1 : PredictResult :=
    match C.predict_purpose note category 1 with
    | [] => r0
    | pc :: _ =>
      if confidence_threshold ≤ pc.2 then
        { r0 with purpose := some pc.1, purpose_confidence := pc.2 }
      else r0
  match C.predict_subcat note category 1 with
  | [] => r1
  | sc :: _ =>
    if confidence_threshold ≤ sc.2 then
      { r1 with subcat := some sc.1, subcat_confidence := sc.2 }
    else r1

/-! ### Correction store and learner

`learn_corrections.py` (in the sources) drives the learning loop, but the
`lib/smart_categorizer.py` module it calls is not among the sources; its
behaviour is modelled from the spec (§4.2, §6 and the unit tests in
`test_smart_categorizer.py`). -/

/-- The Correction Store: a persistent mapping from normalized
counterparty to confirmed category, at most one entry per key
(insertion-ordered, like the JSON object backing it). -/
abbrev CorrectionStore := List (Str × Str)

/-- Modelled from the spec: `SmartCategorizer._clean_counterparty` of the
absent `lib/smart_categorizer.py` — "remove bracketed parenthetical
suffixes (ASCII and full-width parentheses), remove asterisk characters,
trim whitespace; empty input normalizes to empty string". -/
def cleanCounterparty (s : Str) : Str :=
  trimStr ((s.takeWhile (fun c => c ≠ '(' ∧ c ≠ '（')).filter (fun c => c ≠ '*'))

/-- Modelled from the spec: `SmartCategorizer.categorize` of the absent
`lib/smart_categorizer.py`.  A stored correction for the cleaned
counterparty takes priority (per `test_correction_priority`); otherwise
the keyword-rule fallback decides.  The fallback table is abstracted as
an explicit function argument `fallbackRules` (its content does not
matter to the claims); `categorize` reads the store and never mutates
it. -/
def categorize (store : CorrectionStore)
    (fallbackRules : Str → Str → Str → Bool → Str)
    (source_type category counterparty : Str) (is_income : Bool) : Str :=
  match store.find? (fun e => e.1 = cleanCounterparty counterparty) with
  | some e => e.2
  | none => fallbackRules source_type category counterparty is_income

/-- Modelled from the spec: `SmartCategorizer.add_correction` — write or
overwrite the entry for the normalized counterparty (last-write-wins, at
most one entry per normalized key). -/
def addCorrection (store : CorrectionStore) (counterparty category : Str) :
    CorrectionStore :=
  let key := cleanCounterparty counterparty
  if store.any (fun e => e.1 = key) then
    store.map (fun e => if e.1 = key then (e.1, category) else e)
  else store ++ [(key, category)]

/-- The per-record body of `learn_from_ledger` in `learn_corrections.py`:
skip when the (stringified, stripped) counterparty or category is empty
or the category is in the do-not-learn set `['其他', '待报销']`; compute
the baseline by categorizing with unknown source type, empty category and
the counterparty; store a correction only on disagreement.  Returns the
store and the number of corrections learned from this record. -/
def learnRecord (fallbackRules : Str → Str → Str → Bool → Str)
    (store : CorrectionStore) (counterparty category : Str) :
    CorrectionStore × Nat :=
  let counterparty_str := trimStr counterparty
  let category_str := trimStr category
  if counterparty_str = [] ∨ category_str = [] then (store, 0)
  else if category_str = "其他".data ∨ category_str = "待报销".data then (store, 0)
  else
    let local_prediction :=
      categorize store fallbackRules "unknown".data [] counterparty_str false
    if local_prediction ≠ category_str then
      (addCorrection store counterparty_str category_str, 1)
    else (store, 0)

/-! ### Rule-filling (`scripts/fill_by_rules.py`) -/

/-- A source-table row as consumed by `fill_by_rules`, fields already
shape-normalized to strings (`parse_text`/`str`). -/
structure FillRecord where
  record_id : Str
  inOut : Str      -- 收支
  note : Str       -- 备注
  category : Str   -- 分类
  purpose : Str    -- 支出目的
  subcat : Str     -- 细类
deriving DecidableEq, Repr

/-- An entry of the `to_fill` list built by `fill_by_rules`. -/
structure FillItem where
  record_id : Str
  note : Str
  category : Str
  current_purpose : Str
  current_subcat : Str
deriving DecidableEq, Repr

/-- The selection test of `fill_by_rules`: expense rows with non-empty
note and category; in overwrite mode every such row is tried, in default
mode only rows with an empty (stripped) purpose or subcat. -/
def toFillItem (overwrite : Bool) (r : FillRecord) : Option FillItem :=
  if r.inOut ≠ "支出".data then none
  else
    let note := trimStr r.note
    let category := trimStr r.category
    let current_purpose := trimStr r.purpose
    let current_subcat := trimStr r.subcat
    if note = [] ∨ category = [] then none
    -- `need_fill`: overwrite mode tries every record; the default mode
    -- selects only records with an empty purpose or an empty subcat.
    else if overwrite = true ∨ current_purpose = [] ∨ current_subcat = [] then
      some { record_id := r.record_id, note := note, category := category,
             current_purpose := current_purpose, current_subcat := current_subcat }
    else none

/-- The `to_fill` list: selected rows in table order, truncated at
`max_fill` (the source breaks out of the loop once the list is full). -/
def collectToFill (records : List FillRecord) (max_fill : Nat)
    (overwrite : Bool) : List FillItem :=
  (records.filterMap (toFillItem overwrite)).take max_fill

/-- One entry of the `updates` list of `fill_by_rules`: the fields of
`new_fields` that will be written (`none` = field absent from the
update). -/
structure FillUpd where
  record_id : Str
  newPurpose : Option Str   -- 支出目的
  newSubcat : Option Str    -- 细类
deriving DecidableEq, Repr

/-- Python truthiness of a matched rule value (`None` and `''` are both
falsy). -/
def truthyOpt : Option Str → Bool
  | none => false
  | some s => s ≠ []

/-- The update computed for one `to_fill` item: match the rules; skip when
neither field got a truthy prediction; in default mode write a field only
when the prediction is truthy and the current value is empty (overwrite
mode writes every truthy prediction); skip when `new_fields` stays
empty. -/
def itemUpd (rules : List CsvRule) (overwrite : Bool) (item : FillItem) :
    Option FillUpd :=
  let pr := RuleMatcher.matchRule rules item.note item.category
  if truthyOpt pr.1 = false ∧ truthyOpt pr.2 = false then none
  else
    let newP : Option Str :=
      if truthyOpt pr.1 = true ∧ (overwrite = true ∨ item.current_purpose = []) then pr.1
      else none
    let newS : Option Str :=
      if truthyOpt pr.2 = true ∧ (overwrite = true ∨ item.current_subcat = []) then pr.2
      else none
    if newP = none ∧ newS = none then none
    else some { record_id := item.record_id, newPurpose := newP, newSubcat := newS }

/-- The `updates` list computed by `fill_by_rules` before any write. -/
def fillUpdates (rules : List CsvRule) (records : List FillRecord)
    (max_fill : Nat) (overwrite : Bool) : List FillUpd :=
  (collectToFill records max_fill overwrite).filterMap (itemUpd rules overwrite)

/-- The effect of one update on one table row: a row whose `record_id`
matches gets the update's present fields written, any other row is
untouched. -/
def fillPatch (r : FillRecord) (u : FillUpd) : FillRecord :=
  if r.record_id = u.record_id then
    { r with purpose := u.newPurpose.getD r.purpose,
             subcat := u.newSubcat.getD r.subcat }
  else r

/-- Applying one update to the table. -/
def applyFillUpd (records : List FillRecord) (u : FillUpd) : List FillRecord :=
  records.map (fun r => fillPatch r u)

/-- `fill_by_rules` end to end (confirmed, non-dry-run execution with
every batch update succeeding): compute the update plan and apply it to
the table. -/
def fill_by_rules (rules : List CsvRule) (records : List FillRecord)
    (max_fill : Nat) (overwrite : Bool) : List FillRecord :=
  (fillUpdates rules records max_fill overwrite).foldl applyFillUpd records

/-! ### Review workflow sync (`scripts/feishu_review.py`, `lib/feishu_client.py`) -/

/-- The fields of a review-table row that `sync_from_review` reads or
writes (other columns are never touched by sync). -/
structure ReviewFields where
  recordId : Str      -- 记录ID (back-reference to the source row)
  finalPurpose : Str  -- 最终支出目的
  finalSubcat : Str   -- 最终细类
  status : Str        -- 状态
deriving DecidableEq, Repr

/-- A review-table row: its own row id plus its fields. -/
structure ReviewRow where
  rowId : Str
  fields : ReviewFields
deriving DecidableEq, Repr

/-- The two source-table columns sync writes (支出目的, 细类); all other
columns are untouched by sync and not modelled. -/
structure SourceFields where
  purpose : Str
  subcat : Str
deriving DecidableEq, Repr

/-- The source table, keyed by record id. -/
abbrev SourceTable := List (Str × SourceFields)

/-- The combined state sync operates on. -/
structure SyncState where
  source : SourceTable
  review : List ReviewRow
deriving DecidableEq, Repr

/-- An entry of the `updates` list of `sync_from_review` (trimmed values;
an empty `finalPurpose`/`finalSubcat` means the field is absent from
`update_fields`). -/
structure SyncUpd where
  recordId : Str
  finalPurpose : Str
  finalSubcat : Str
  reviewRowId : Str
deriving DecidableEq, Repr

/-- The per-row test of the filtering loop of `sync_from_review`: keep a
row when its stripped status is 已确认 (confirmed), its stripped record
id is non-empty and at least one final field is non-empty. -/
def toSyncUpd (r : ReviewRow) : Option SyncUpd :=
  if trimStr r.fields.status ≠ "已确认".data then none
  else
    let original_record_id := trimStr r.fields.recordId
    let final_purpose := trimStr r.fields.finalPurpose
    let final_subcat := trimStr r.fields.finalSubcat
    if original_record_id = [] then none
    else if final_purpose = [] ∧ final_subcat = [] then none
    else some { recordId := original_record_id, finalPurpose := final_purpose,
                finalSubcat := final_subcat, reviewRowId := r.rowId }

/-- The `updates` list of `sync_from_review`. -/
def collectUpdates (review : List ReviewRow) : List SyncUpd :=
  review.filterMap toSyncUpd

/-- Writing one update's `update_fields` into a source row's fields (only
the non-empty final values are present in `update_fields`). -/
def applyUpdFields (f : SourceFields) (u : SyncUpd) : SourceFields :=
  { purpose := if u.finalPurpose ≠ [] then u.finalPurpose else f.purpose,
    subcat := if u.finalSubcat ≠ [] then u.finalSubcat else f.subcat }

/-- One row update against the source table. -/
def applySrcUpd (tbl : SourceTable) (u : SyncUpd) : SourceTable :=
  tbl.map (fun e => if e.1 = u.recordId then (e.1, applyUpdFields e.2 u) else e)

/-- The outcome of the remote store's operations, as far as the sync code
can observe it: per batch index, whether `batch_update_records` raises
(token fetch failure — the only way it can raise), whether the batch API
call itself succeeds, and per record id, whether a per-row fallback
update succeeds; the same three outcomes for the review-table status
updates. -/
structure StoreBehavior where
  srcRaises : Nat → Bool
  srcBatchOk : Nat → Bool
  srcRowOk : Str → Bool
  revRaises : Nat → Bool
  revBatchOk : Nat → Bool
  revRowOk : Str → Bool

/-- Fuel-driven core of `chunksOf` (structural recursion on the fuel, so
that the kernel can evaluate it; each step consumes one element plus
`n - 1` more, so fuel `l.length` always suffices). -/
def chunksOfAux (n : Nat) : Nat → List α → List (List α)
  | _, [] => []
  | 0, l => [l]
  | fuel + 1, x :: xs => (x :: xs.take (n - 1)) :: chunksOfAux n fuel (xs.drop (n - 1))

/-- `range(0, len(l), n)` batching: split a list into chunks of `n` (the
source always uses `n = 100`). -/
def chunksOf (n : Nat) (l : List α) : List (List α) :=
  chunksOfAux n l.length l

/-- `FeishuClient.batch_update_records` against the source table, for the
batch at index `i`: on a raise nothing is written; on batch-API success
every row is written; otherwise `_fallback_single_update` writes exactly
the rows whose per-row update succeeds (per-row failures are reported in
the result's `failed` count, never raised). -/
def applySrcBatch (b : StoreBehavior) (i : Nat) (tbl : SourceTable)
    (batch : List SyncUpd) : SourceTable :=
  if b.srcBatchOk i then batch.foldl applySrcUpd tbl
  else batch.foldl (fun t u => if b.srcRowOk u.recordId then applySrcUpd t u else t) tbl

/-- The source-update loop of `sync_from_review`: for each batch, when the
call raises the batch is skipped (logged) and none of its review rows is
queued for a status change; otherwise the batch is written (fully or via
the per-row fallback) and EVERY row of the batch — regardless of the
per-row `failed` count in the result — is queued to have its review
status set to 已同步.  Returns the updated table and the queued review
row ids. -/
def runSrcBatches (b : StoreBehavior) : List (List SyncUpd) → Nat → SourceTable →
    SourceTable × List Str
  | [], _, tbl => (tbl, [])
  | batch :: rest, i, tbl =>
    if b.srcRaises i then runSrcBatches b rest (i + 1) tbl
    else
      let tbl' := applySrcBatch b i tbl batch
      let out := runSrcBatches b rest (i + 1) tbl'
      (out.1, batch.map (fun u => u.reviewRowId) ++ out.2)

/-- Setting one review row's 状态 to 已同步. -/
def setSynced (r : ReviewRow) : ReviewRow :=
  { r with fields := { r.fields with status := "已同步".data } }

/-- One status update against the review table. -/
def applyRevStatus (review : List ReviewRow) (rowId : Str) : List ReviewRow :=
  review.map (fun r => if r.rowId = rowId then setSynced r else r)

/-- The review-status-update loop of `sync_from_review`: batches of queued
row ids are written with `batch_update_records` (result ignored,
exceptions logged and swallowed per batch). -/
def runRevBatches (b : StoreBehavior) : List (List Str) → Nat → List ReviewRow →
    List ReviewRow
  | [], _, review => review
  | batch :: rest, i, review =>
    if b.revRaises i then runRevBatches b rest (i + 1) review
    else
      let review' :=
        if b.revBatchOk i then batch.foldl applyRevStatus review
        else batch.foldl
          (fun rv rid => if b.revRowOk rid then applyRevStatus rv rid else rv) review
      runRevBatches b rest (i + 1) review'

/-- `FeishuReviewWorkflow.sync_from_review` with `dry_run=False`: collect
the confirmed rows' updates; when there are none, return unchanged;
otherwise write the source table in batches of `batch_size`, then set the
queued review rows' status to 已同步 in batches of `batch_size`. -/
def sync_from_review (b : StoreBehavior) (batch_size : Nat) (s : SyncState) :
    SyncState :=
  let updates := collectUpdates s.review
  if updates = [] then s
  else
    let out := runSrcBatches b (chunksOf batch_size updates) 0 s.source
    let review' := runRevBatches b (chunksOf batch_size out.2) 0 s.review
    { source := out.1, review := review' }

/-! ### Claim theorems -/

/-- C5, counterexample: the claim states that a note ending in `'-'` with
an empty remainder yields no counterparty, but the code falls through to
strategy 2 and returns the whole note: for note `"午餐-"` and category
`"餐饮"` the extractor returns `"午餐-"`, not nothing. -/
theorem c5_counterexample :
    extract_counterparty_from_note "午餐-".data "餐饮".data = some "午餐-".data ∧
    extract_counterparty_from_note "午餐-".data "餐饮".data ≠ none := by
  decide

/-- C5, amended: the extractor follows the ordered policy — an empty note
yields nothing; a note whose first-`'-'` split has a non-empty trimmed
second part yields that part; otherwise (no `'-'`, or an empty remainder
after trimming — the latter falling through rather than stopping) the
whole trimmed note is returned when it differs from the trimmed category,
and nothing is returned only when the two are equal. -/
theorem c5_extractor_policy (note category : Str) :
    (note = [] → extract_counterparty_from_note note category = none) ∧
    (∀ c, note ≠ [] → dashCandidate (trimStr note) = some c →
      extract_counterparty_from_note note category = some c) ∧
    (note ≠ [] → dashCandidate (trimStr note) = none →
      trimStr note ≠ trimStr category →
      extract_counterparty_from_note note category = some (trimStr note)) ∧
    (note ≠ [] → dashCandidate (trimStr note) = none →
      trimStr note = trimStr category →
      extract_counterparty_from_note note category = none) := by
  refine ⟨fun h => ?_, fun c hn hd => ?_, fun hn hd hne => ?_, fun hn hd heq => ?_⟩
  · simp [extract_counterparty_from_note, h]
  · simp [extract_counterparty_from_note, hn, hd]
  · simp [extract_counterparty_from_note, hn, hd, hne]
  · have hd' : dashCandidate (trimStr category) = none := heq ▸ hd
    simp [extract_counterparty_from_note, hn, hd', heq]

/-- C5, witness for `c5_extractor_policy`: the empty-remainder fall-through
case at note `"午餐-"`, category `"餐饮"`. -/
theorem c5_extractor_policy_witness :
    ("午餐-".data ≠ ([] : Str)) ∧
    extract_counterparty_from_note "午餐-".data "餐饮".data = some (trimStr "午餐-".data) :=
  ⟨by decide,
    (c5_extractor_policy "午餐-".data "餐饮".data).2.2.1 (by decide) (by decide) (by decide)⟩

/-- C3: the matcher returns the `(purpose, subcat)` of the first rule in
stored order whose category equals the input exactly and whose keyword is
a substring of the note — in particular, when several enabled rules
match, the earliest in the supplied list wins regardless of confidence —
and returns `(none, none)` when no rule matches. -/
theorem c3_matcher_first_match (rules : List CsvRule) (note category : Str) :
    (∀ pre r post, rules = pre ++ r :: post →
      (∀ r' ∈ pre, ruleMatches (trimStr note) (trimStr category) r' = false) →
      ruleMatches (trimStr note) (trimStr category) r = true →
      RuleMatcher.matchRule rules note category = (some r.purpose, some r.subcat)) ∧
    ((∀ r' ∈ rules, ruleMatches (trimStr note) (trimStr category) r' = false) →
      RuleMatcher.matchRule rules note category = (none, none)) := by
  constructor
  · intro pre r post hsplit hpre hr
    unfold RuleMatcher.matchRule
    have hfind : rules.find? (ruleMatches (trimStr note) (trimStr category)) = some r := by
      rw [hsplit, List.find?_append]
      have hnone : pre.find? (ruleMatches (trimStr note) (trimStr category)) = none :=
        List.find?_eq_none.mpr (fun x hx => by simp [hpre x hx])
      rw [hnone, Option.none_or, List.find?_cons_of_pos _ hr]
    simp [hfind]
  · intro hall
    unfold RuleMatcher.matchRule
    have hfind : rules.find? (ruleMatches (trimStr note) (trimStr category)) = none :=
      List.find?_eq_none.mpr (fun x hx => by simp [hall x hx])
    simp [hfind]

/-- C3, witness for `c3_matcher_first_match`: two enabled rules both match
note `"午餐"` under category `"餐饮"`; the first one (`purpose "日常"`)
wins over the second (`purpose "社交"`) although the second carries the
higher confidence string. -/
theorem c3_matcher_first_match_witness :
    RuleMatcher.matchRule
      [⟨"午".data, "餐饮".data, "日常".data, "外食".data, "50.00%".data⟩,
       ⟨"午餐".data, "餐饮".data, "社交".data, "聚餐".data, "90.00%".data⟩]
      "午餐".data "餐饮".data = (some "日常".data, some "外食".data) :=
  (c3_matcher_first_match _ "午餐".data "餐饮".data).1 []
    ⟨"午".data, "餐饮".data, "日常".data, "外食".data, "50.00%".data⟩
    [⟨"午餐".data, "餐饮".data, "社交".data, "聚餐".data, "90.00%".data⟩]
    rfl (fun r' hr' => absurd hr' (List.not_mem_nil r')) (by decide)

/-- The end-to-end corpus of spec §8 item 8: five expense records with
note `"午餐-楼下面馆"` and category `"餐饮"`, three labeled
`(日常, 外食)` and two labeled `(社交, 聚餐)`. -/
def c4Corpus : List TxRecord :=
  [⟨"支出".data, "午餐-楼下面馆".data, "餐饮".data, "日常".data, "外食".data⟩,
   ⟨"支出".data, "午餐-楼下面馆".data, "餐饮".data, "日常".data, "外食".data⟩,
   ⟨"支出".data, "午餐-楼下面馆".data, "餐饮".data, "日常".data, "外食".data⟩,
   ⟨"支出".data, "午餐-楼下面馆".data, "餐饮".data, "社交".data, "聚餐".data⟩,
   ⟨"支出".data, "午餐-楼下面馆".data, "餐饮".data, "社交".data, "聚餐".data⟩]

/-- C4, counterexample: the claim asserts a mined rule with keyword
`"午餐"`; but the note is 7 characters long, so `extract_keywords`
produces only the 3-, 4- and 5-character prefixes `"午餐-"`, `"午餐-楼"`,
`"午餐-楼下"` — no rule with keyword `"午餐"` exists in the mined
output. -/
theorem c4_counterexample :
    ("午餐".data : Str) ∉ (extract_rules c4Corpus 2 500).map MinedRule.keyword := by
  decide

/-- C4, amended: mining the §8 corpus with `min_count = 2` yields exactly
the three rules for the prefix keywords `"午餐-"`, `"午餐-楼"` and
`"午餐-楼下"` (per the 3/4/5-character rule; there is no 2-character
keyword `"午餐"`), each with outcome `(日常, 外食)`, confidence
`3/5 = 0.6`, count 3 and total 5; and a new transaction with note
`"午餐-楼下面馆"` and category `"餐饮"` matches and is predicted
`(日常, 外食)`. -/
theorem c4_end_to_end :
    extract_rules c4Corpus 2 500 =
      [⟨"午餐-".data, "餐饮".data, "日常".data, "外食".data, mkRat 3 5, 3, 5⟩,
       ⟨"午餐-楼".data, "餐饮".data, "日常".data, "外食".data, mkRat 3 5, 3, 5⟩,
       ⟨"午餐-楼下".data, "餐饮".data, "日常".data, "外食".data, mkRat 3 5, 3, 5⟩] ∧
    (mkRat 3 5 : ℚ) = 3 / 5 ∧
    RuleMatcher.matchRule ((extract_rules c4Corpus 2 500).map mineToCsv)
      "午餐-楼下面馆".data "餐饮".data = (some "日常".data, some "外食".data) := by
  refine ⟨by decide, ?_, by decide⟩
  rw [Rat.mkRat_eq_div]
  norm_num

/-! Helper lemmas for the rule-filling frame property. -/

theorem toFillItem_false_inv (rec : FillRecord) (item : FillItem)
    (h : toFillItem false rec = some item) :
    item.record_id = rec.record_id ∧
    item.current_purpose = trimStr rec.purpose ∧
    item.current_subcat = trimStr rec.subcat ∧
    (trimStr rec.purpose = [] ∨ trimStr rec.subcat = []) := by
  unfold toFillItem at h
  simp only [Bool.false_eq_true, false_or] at h
  split_ifs at h with h1 h2 h3
  · obtain rfl := (Option.some.inj h).symm
    exact ⟨rfl, rfl, rfl, h3⟩

theorem mem_collectToFill (records : List FillRecord) (max_fill : Nat)
    (overwrite : Bool) (item : FillItem)
    (h : item ∈ collectToFill records max_fill overwrite) :
    ∃ rec ∈ records, toFillItem overwrite rec = some item :=
  List.mem_filterMap.mp (List.mem_of_mem_take h)

theorem itemUpd_false_inv (rules : List CsvRule) (item : FillItem) (u : FillUpd)
    (h : itemUpd rules false item = some u) :
    u.record_id = item.record_id ∧
    (u.newPurpose ≠ none → item.current_purpose = []) ∧
    (u.newSubcat ≠ none → item.current_subcat = []) := by
  unfold itemUpd at h
  simp only [Bool.false_eq_true, false_or] at h
  split_ifs at h with h1 h2 h3 h4 h5 h6 h7 h8 <;>
    (obtain rfl := (Option.some.inj h).symm;
     refine ⟨rfl, fun hp => ?_, fun hs => ?_⟩ <;> simp_all)

theorem fillPatch_record_id (r : FillRecord) (u : FillUpd) :
    (fillPatch r u).record_id = r.record_id := by
  unfold fillPatch; split <;> rfl

theorem foldl_fillPatch_record_id (upds : List FillUpd) (r : FillRecord) :
    (upds.foldl fillPatch r).record_id = r.record_id := by
  induction upds generalizing r with
  | nil => rfl
  | cons u us ih => rw [List.foldl_cons, ih, fillPatch_record_id]

theorem foldl_applyFillUpd_eq_map (upds : List FillUpd) (records : List FillRecord) :
    upds.foldl applyFillUpd records = records.map (fun r => upds.foldl fillPatch r) := by
  induction upds generalizing records with
  | nil => simp
  | cons u us ih =>
    rw [List.foldl_cons, ih]
    unfold applyFillUpd
    rw [List.map_map]
    rfl

theorem foldl_fillPatch_purpose (upds : List FillUpd) (r : FillRecord)
    (h : ∀ u ∈ upds, u.record_id = r.record_id → u.newPurpose = none) :
    (upds.foldl fillPatch r).purpose = r.purpose := by
  induction upds generalizing r with
  | nil => rfl
  | cons u us ih =>
    rw [List.foldl_cons]
    have hpatch_id : (fillPatch r u).record_id = r.record_id := fillPatch_record_id r u
    have hpatch_p : (fillPatch r u).purpose = r.purpose := by
      unfold fillPatch
      split
      · rename_i heq
        rw [h u (List.mem_cons_self u us) heq.symm]
        rfl
      · rfl
    rw [ih (fillPatch r u) (fun v hv hid => h v (List.mem_cons_of_mem u hv)
      (hid.trans hpatch_id)), hpatch_p]

theorem foldl_fillPatch_subcat (upds : List FillUpd) (r : FillRecord)
    (h : ∀ u ∈ upds, u.record_id = r.record_id → u.newSubcat = none) :
    (upds.foldl fillPatch r).subcat = r.subcat := by
  induction upds generalizing r with
  | nil => rfl
  | cons u us ih =>
    rw [List.foldl_cons]
    have hpatch_id : (fillPatch r u).record_id = r.record_id := fillPatch_record_id r u
    have hpatch_s : (fillPatch r u).subcat = r.subcat := by
      unfold fillPatch
      split
      · rename_i heq
        rw [h u (List.mem_cons_self u us) heq.symm]
        rfl
      · rfl
    rw [ih (fillPatch r u) (fun v hv hid => h v (List.mem_cons_of_mem u hv)
      (hid.trans hpatch_id)), hpatch_s]

theorem forall₂_map_self {α β : Type _} (R : α → β → Prop) (l : List α) (f : α → β)
    (h : ∀ a ∈ l, R a (f a)) : List.Forall₂ R l (l.map f) := by
  induction l with
  | nil => exact List.Forall₂.nil
  | cons x xs ih =>
    exact List.Forall₂.cons (h x (List.mem_cons_self x xs))
      (ih (fun a ha => h a (List.mem_cons_of_mem x ha)))

/-- C10: in the default (non-overwrite) mode of the rule-filling
operation, a record whose purpose and subcat are both already non-empty
is not selected at all; every computed update writes a field only for a
selected record whose corresponding field is empty; and consequently a
source record's existing non-empty purpose is never changed and its
existing non-empty subcat is never changed by the whole operation. -/
theorem c10_fill_nonoverwrite_frame (rules : List CsvRule)
    (records : List FillRecord) (max_fill : Nat)
    (hnodup : (records.map (fun r => r.record_id)).Nodup) :
    (∀ r ∈ records, trimStr r.purpose ≠ [] → trimStr r.subcat ≠ [] →
      toFillItem false r = none) ∧
    (∀ u ∈ fillUpdates rules records max_fill false, ∃ rec, rec ∈ records ∧
      u.record_id = rec.record_id ∧
      (u.newPurpose ≠ none → trimStr rec.purpose = []) ∧
      (u.newSubcat ≠ none → trimStr rec.subcat = [])) ∧
    List.Forall₂ (fun r r' => r'.record_id = r.record_id ∧
        (trimStr r.purpose ≠ [] → r'.purpose = r.purpose) ∧
        (trimStr r.subcat ≠ [] → r'.subcat = r.subcat))
      records (fill_by_rules rules records max_fill false) := by
  have hupds : ∀ u ∈ fillUpdates rules records max_fill false, ∃ rec, rec ∈ records ∧
      u.record_id = rec.record_id ∧
      (u.newPurpose ≠ none → trimStr rec.purpose = []) ∧
      (u.newSubcat ≠ none → trimStr rec.subcat = []) := by
    intro u hu
    obtain ⟨item, hitem, hitemupd⟩ := List.mem_filterMap.mp hu
    obtain ⟨rec, hrec, hto⟩ := mem_collectToFill records max_fill false item hitem
    obtain ⟨hid, hcp, hcs, _⟩ := toFillItem_false_inv rec item hto
    obtain ⟨huid, hup, hus⟩ := itemUpd_false_inv rules item u hitemupd
    exact ⟨rec, hrec, huid.trans hid,
      fun hne => (hcp.symm.trans (hup hne)),
      fun hne => (hcs.symm.trans (hus hne))⟩
  refine ⟨?_, hupds, ?_⟩
  · intro r hr hp hs
    unfold toFillItem
    simp only [Bool.false_eq_true, false_or]
    split_ifs with h1 h2 h3
    · rfl
    · rfl
    · rcases h3 with h3 | h3
      · exact absurd h3 hp
      · exact absurd h3 hs
    · rfl
  · rw [fill_by_rules, foldl_applyFillUpd_eq_map]
    apply forall₂_map_self
    intro r hr
    refine ⟨foldl_fillPatch_record_id _ r, fun hp => ?_, fun hs => ?_⟩
    · apply foldl_fillPatch_purpose
      intro u hu hid
      obtain ⟨rec, hrec, huid, hup, _⟩ := hupds u hu
      have hrr : rec = r :=
        List.inj_on_of_nodup_map hnodup hrec hr (by rw [← huid, hid])
      subst hrr
      by_cases hN : u.newPurpose = none
      · exact hN
      · exact absurd (hup hN) hp
    · apply foldl_fillPatch_subcat
      intro u hu hid
      obtain ⟨rec, hrec, huid, _, hus⟩ := hupds u hu
      have hrr : rec = r :=
        List.inj_on_of_nodup_map hnodup hrec hr (by rw [← huid, hid])
      subst hrr
      by_cases hN : u.newSubcat = none
      · exact hN
      · exact absurd (hus hN) hs

/-- Concrete table for the C10 witness: one expense row with both labels
already present, one with both labels empty. -/
def w10records : List FillRecord :=
  [⟨"r1".data, "支出".data, "午餐".data, "餐饮".data, "日常".data, "外食".data⟩,
   ⟨"r2".data, "支出".data, "午餐".data, "餐饮".data, [], []⟩]

/-- Concrete enabled rule list for the C10 witness. -/
def w10rules : List CsvRule :=
  [⟨"午餐".data, "餐饮".data, "社交".data, "聚餐".data, "60.00%".data⟩]

/-- C10, witness for `c10_fill_nonoverwrite_frame` at a concrete table
and rule list. -/
theorem c10_fill_nonoverwrite_frame_witness :
    (w10records.map (fun r => r.record_id)).Nodup ∧
    ((∀ r ∈ w10records, trimStr r.purpose ≠ [] → trimStr r.subcat ≠ [] →
        toFillItem false r = none) ∧
      (∀ u ∈ fillUpdates w10rules w10records 500 false, ∃ rec, rec ∈ w10records ∧
        u.record_id = rec.record_id ∧
        (u.newPurpose ≠ none → trimStr rec.purpose = []) ∧
        (u.newSubcat ≠ none → trimStr rec.subcat = [])) ∧
      List.Forall₂ (fun r r' => r'.record_id = r.record_id ∧
          (trimStr r.purpose ≠ [] → r'.purpose = r.purpose) ∧
          (trimStr r.subcat ≠ [] → r'.subcat = r.subcat))
        w10records (fill_by_rules w10rules w10records 500 false)) :=
  ⟨by decide, c10_fill_nonoverwrite_frame w10rules w10records 500 (by decide)⟩

/-- C9: for a transaction with a non-empty normalized counterparty and a
non-empty confirmed category outside the do-not-learn set, if the
baseline prediction (categorize with unknown source type, empty category
and the counterparty) already equals the confirmed category, the learning
step performs no write: the Correction Store is unchanged and no
correction is counted. -/
theorem c9_agreement_noop (fallbackRules : Str → Str → Str → Bool → Str)
    (store : CorrectionStore) (counterparty category : Str)
    (hcp : cleanCounterparty (trimStr counterparty) ≠ [])
    (hcat : trimStr category ≠ [])
    (hset : trimStr category ≠ "其他".data ∧ trimStr category ≠ "待报销".data)
    (hbase : categorize store fallbackRules "unknown".data [] (trimStr counterparty) false
      = trimStr category) :
    learnRecord fallbackRules store counterparty category = (store, 0) := by
  simp only [learnRecord]
  split_ifs with h1 h2 h3
  · rfl
  · rfl
  · exact absurd hbase h3
  · rfl

/-- C9, witness for `c9_agreement_noop`: an empty store, a fallback that
answers `餐饮` for everything, counterparty `星巴克` confirmed as `餐饮` —
the baseline agrees, the store stays empty. -/
theorem c9_agreement_noop_witness :
    (cleanCounterparty (trimStr "星巴克".data) ≠ []) ∧
    (trimStr "餐饮".data ≠ ([] : Str)) ∧
    (trimStr "餐饮".data ≠ "其他".data ∧ trimStr "餐饮".data ≠ "待报销".data) ∧
    learnRecord (fun _ _ _ _ => "餐饮".data) [] "星巴克".data "餐饮".data = ([], 0) :=
  ⟨by decide, by decide, ⟨by decide, by decide⟩,
    c9_agreement_noop (fun _ _ _ _ => "餐饮".data) [] "星巴克".data "餐饮".data
      (by decide) (by decide) ⟨by decide, by decide⟩ (by decide)⟩

/-! Helper lemmas for the miner invariants. -/

theorem foldl_invariant {α σ : Type _} (P : σ → Prop) (f : σ → α → σ)
    (h : ∀ s a, P s → P (f s a)) : ∀ (l : List α) (s : σ), P s → P (l.foldl f s) := by
  intro l
  induction l with
  | nil => exact fun s hs => hs
  | cons x xs ih => exact fun s hs => ih (f s x) (h s x hs)

theorem bumpOutcome_counts_pos (m : List (Outcome × Nat)) (k : Outcome)
    (h : ∀ e ∈ m, 1 ≤ e.2) : ∀ e ∈ bumpOutcome m k, 1 ≤ e.2 := by
  intro e he
  unfold bumpOutcome at he
  split at he
  · obtain ⟨x, hx, hxe⟩ := List.mem_map.mp he
    by_cases hk : x.1 = k
    · rw [if_pos hk] at hxe
      rw [← hxe]
      exact Nat.le_succ_of_le (h x hx)
    · rw [if_neg hk] at hxe
      exact hxe ▸ h x hx
  · rcases List.mem_append.mp he with h1 | h1
    · exact h e h1
    · rw [List.mem_singleton.mp h1]

theorem bumpStats_counts_pos (stats : List (RuleKey × List (Outcome × Nat)))
    (k : RuleKey) (o : Outcome)
    (h : ∀ s ∈ stats, ∀ e ∈ s.2, 1 ≤ e.2) :
    ∀ s ∈ bumpStats stats k o, ∀ e ∈ s.2, 1 ≤ e.2 := by
  intro s hs
  unfold bumpStats at hs
  split at hs
  · obtain ⟨x, hx, hxs⟩ := List.mem_map.mp hs
    by_cases hk : x.1 = k
    · rw [if_pos hk] at hxs
      rw [← hxs]
      exact bumpOutcome_counts_pos x.2 o (h x hx)
    · rw [if_neg hk] at hxs
      exact hxs ▸ h x hx
  · rcases List.mem_append.mp hs with h1 | h1
    · exact h s h1
    · rw [List.mem_singleton.mp h1]
      exact bumpOutcome_counts_pos [] o (fun e he => absurd he (List.not_mem_nil e))

theorem ruleStatsStep_counts_pos (stats : List (RuleKey × List (Outcome × Nat)))
    (r : TxRecord) (h : ∀ s ∈ stats, ∀ e ∈ s.2, 1 ≤ e.2) :
    ∀ s ∈ ruleStatsStep stats r, ∀ e ∈ s.2, 1 ≤ e.2 := by
  unfold ruleStatsStep
  split
  · exact h
  · dsimp only
    split
    · exact h
    · exact foldl_invariant (fun stats => ∀ s ∈ stats, ∀ e ∈ s.2, 1 ≤ e.2)
        (fun stats keyword => bumpStats stats (keyword, trimStr r.category)
          (trimStr r.purpose, trimStr r.subcat))
        (fun s' kw h' => bumpStats_counts_pos s' _ _ h') _ stats h

theorem ruleStats_counts_pos (records : List TxRecord) :
    ∀ s ∈ ruleStats records, ∀ e ∈ s.2, 1 ≤ e.2 := by
  unfold ruleStats
  exact foldl_invariant (fun stats => ∀ s ∈ stats, ∀ e ∈ s.2, 1 ≤ e.2)
    ruleStatsStep (fun s r h => ruleStatsStep_counts_pos s r h) records []
    (fun s hs => absurd hs (List.not_mem_nil s))

theorem argmaxFirst_aux_mem (x : Outcome × Nat) (xs : List (Outcome × Nat)) :
    xs.foldl (fun best y => if best.2 < y.2 then y else best) x ∈ x :: xs := by
  induction xs generalizing x with
  | nil => exact List.mem_singleton.mpr rfl
  | cons y ys ih =>
    rw [List.foldl_cons]
    have := ih (if x.2 < y.2 then y else x)
    rcases List.mem_cons.mp this with h1 | h1
    · rw [h1]
      split
      · exact List.mem_cons_of_mem x (List.mem_cons_self y ys)
      · exact List.mem_cons_self x _
    · exact List.mem_cons_of_mem x (List.mem_cons_of_mem y h1)

theorem argmaxFirst_mem (l : List (Outcome × Nat)) (x : Outcome × Nat)
    (h : argmaxFirst l = some x) : x ∈ l := by
  cases l with
  | nil => exact absurd h (by simp [argmaxFirst])
  | cons a as =>
    unfold argmaxFirst at h
    obtain rfl := (Option.some.inj h).symm
    exact argmaxFirst_aux_mem a as

theorem mem_candidateRules (records : List TxRecord) (min_count : Nat)
    (r : MinedRule) (h : r ∈ candidateRules records min_count) :
    r.confidence = mkRat r.count r.total ∧ min_count ≤ r.count ∧
    1 ≤ r.count ∧ r.count ≤ r.total := by
  unfold candidateRules at h
  obtain ⟨e, he, heq⟩ := List.mem_filterMap.mp h
  cases harg : argmaxFirst e.2 with
  | none => rw [harg] at heq; exact absurd heq (by simp)
  | some oc =>
    rw [harg] at heq
    dsimp only at heq
    split at heq
    · exact absurd heq (by simp)
    · rename_i hmin
      obtain rfl := (Option.some.inj heq).symm
      have hmem := argmaxFirst_mem e.2 oc harg
      have hpos : 1 ≤ oc.2 := ruleStats_counts_pos records e he oc hmem
      have hle : oc.2 ≤ (e.2.map (fun x => x.2)).sum :=
        List.single_le_sum (fun x _ => Nat.zero_le x) _ (List.mem_map_of_mem _ hmem)
      exact ⟨rfl, Nat.le_of_not_lt hmin, hpos, hle⟩

/-- C7: every rule in the miner's output satisfies
`confidence = count/total`, `0 < confidence ≤ 1` and `count ≥ min_count`;
the output is sorted non-increasingly by `(confidence, count)`; and its
length is at most `max_rules`. -/
theorem c7_mined_rule_invariants (records : List TxRecord) (min_count max_rules : Nat) :
    (∀ r ∈ extract_rules records min_count max_rules,
      r.confidence = (r.count : ℚ) / (r.total : ℚ) ∧
      0 < r.confidence ∧ r.confidence ≤ 1 ∧ min_count ≤ r.count) ∧
    (extract_rules records min_count max_rules).Sorted ruleLe ∧
    (extract_rules records min_count max_rules).length ≤ max_rules := by
  refine ⟨?_, ?_, ?_⟩
  · intro r hr
    have h1 : r ∈ sortedRules records min_count := List.mem_of_mem_take hr
    have h2 : r ∈ candidateRules records min_count :=
      (List.mem_insertionSort ruleLe).mp h1
    obtain ⟨hconf, hmin, hpos, hle⟩ := mem_candidateRules records min_count r h2
    have htot : 0 < r.total := Nat.lt_of_lt_of_le hpos hle
    have hconf' : r.confidence = (r.count : ℚ) / (r.total : ℚ) := by
      rw [hconf, Rat.mkRat_eq_div]
      norm_num
    refine ⟨hconf', ?_, ?_, hmin⟩
    · rw [hconf']
      exact div_pos (by exact_mod_cast hpos) (by exact_mod_cast htot)
    · rw [hconf', div_le_one (by exact_mod_cast htot)]
      exact_mod_cast hle
  · exact (List.sorted_insertionSort ruleLe (candidateRules records min_count)).sublist
      (List.take_sublist max_rules (sortedRules records min_count))
  · exact List.length_take_le max_rules (sortedRules records min_count)

/-- C7, witness for `c7_mined_rule_invariants`: the first rule mined from
the §8 corpus satisfies the invariants. -/
theorem c7_mined_rule_invariants_witness :
    ((⟨"午餐-".data, "餐饮".data, "日常".data, "外食".data, mkRat 3 5, 3, 5⟩ : MinedRule)
      ∈ extract_rules c4Corpus 2 500) ∧
    ((⟨"午餐-".data, "餐饮".data, "日常".data, "外食".data, mkRat 3 5, 3, 5⟩ : MinedRule).confidence
        = ((3 : ℚ) / (5 : ℚ)) ∧
      0 < (mkRat 3 5 : ℚ) ∧ (mkRat 3 5 : ℚ) ≤ 1 ∧ 2 ≤ 3) :=
  ⟨by decide,
    (c7_mined_rule_invariants c4Corpus 2 500).1
      ⟨"午餐-".data, "餐饮".data, "日常".data, "外食".data, mkRat 3 5, 3, 5⟩ (by decide)⟩

/-! The miner with the `list(set(...))` enumeration made explicit.

`extract_keywords` ends with `list(set(keywords))`; the iteration order
of a CPython `set` of strings depends on the per-process hash seed, so
the order in which a given process enumerates the (deduplicated)
candidates is an ambient parameter of a mining run, not a function of
the corpus.  The `_with`-suffixed definitions below are the same miner
with that enumeration `ord` passed in; the fixed-order miner above is
the instance at `ord := dedupKeepFirst`
(`extract_rules_with_dedupKeepFirst`). -/

/-- `extract_rules.extract_keywords` with the `list(set(...))` step as an
explicit enumeration `ord` (the candidate list is handed to `ord`, which
stands for one process's set construction and iteration). -/
def extract_keywords_with (ord : List Str → List Str) (note : Str) : List Str :=
  let note := trimStr note
  if note = [] then []
  else
    let keywords :=
      (if note.length ≤ 6 then [note] else []) ++
        ([3, 4, 5].filterMap fun n =>
          if n ≤ note.length then some (note.take n) else none)
    ord keywords

/-- `ruleStatsStep` over `extract_keywords_with ord`. -/
def ruleStatsStep_with (ord : List Str → List Str)
    (stats : List (RuleKey × List (Outcome × Nat))) (r : TxRecord) :
    List (RuleKey × List (Outcome × Nat)) :=
  if r.inOut ≠ "支出".data then stats
  else
    let note := trimStr r.note
    let category := trimStr r.category
    let purpose := trimStr r.purpose
    let subcat := trimStr r.subcat
    if note = [] ∨ category = [] ∨ purpose = [] ∨ subcat = [] then stats
    else
      (extract_keywords_with ord note).foldl
        (fun stats keyword => bumpStats stats (keyword, category) (purpose, subcat))
        stats

/-- `ruleStats` over a given keyword enumeration. -/
def ruleStats_with (ord : List Str → List Str) (records : List TxRecord) :
    List (RuleKey × List (Outcome × Nat)) :=
  records.foldl (ruleStatsStep_with ord) []

/-- `candidateRules` over a given keyword enumeration. -/
def candidateRules_with (ord : List Str → List Str) (records : List TxRecord)
    (min_count : Nat) : List MinedRule :=
  (ruleStats_with ord records).filterMap fun e =>
    match argmaxFirst e.2 with
    | none => none
    | some oc =>
      if oc.2 < min_count then none
      else
        some { keyword := e.1.1, category := e.1.2, purpose := oc.1.1,
               subcat := oc.1.2,
               confidence := mkRat oc.2 ((e.2.map (fun x => x.2)).sum),
               count := oc.2, total := (e.2.map (fun x => x.2)).sum }

/-- `sortedRules` over a given keyword enumeration. -/
def sortedRules_with (ord : List Str → List Str) (records : List TxRecord)
    (min_count : Nat) : List MinedRule :=
  List.insertionSort ruleLe (candidateRules_with ord records min_count)

/-- `extract_rules` over a given keyword enumeration. -/
def extract_rules_with (ord : List Str → List Str) (records : List TxRecord)
    (min_count max_rules : Nat) : List MinedRule :=
  (sortedRules_with ord records min_count).take max_rules

/-- The fixed-order miner is the enumeration-parametric miner at
`ord := dedupKeepFirst`. -/
theorem extract_rules_with_dedupKeepFirst (records : List TxRecord)
    (min_count max_rules : Nat) :
    extract_rules_with dedupKeepFirst records min_count max_rules =
      extract_rules records min_count max_rules := rfl

/-- One possible set enumeration: first-occurrence order. -/
def hashOrderA : List Str → List Str := dedupKeepFirst

/-- Another possible set enumeration (a different hash seed): the same
deduplicated elements in reverse order. -/
def hashOrderB : List Str → List Str := fun l => (dedupKeepFirst l).reverse

/-- C8, counterexample: two runs of the miner on the SAME corpus under
two legitimate `list(set(...))` enumerations — `hashOrderA` and
`hashOrderB` produce the same deduplicated keyword sets (permutations of
each other, both without duplicates) — mine the same rules as a set but
rank the `(confidence, count)`-tied rules in different orders: the
ranked rule lists of the two runs differ, so tie order is not
reproducible across runs with different hash seeds. -/
theorem c8_counterexample :
    (extract_keywords_with hashOrderA "午餐-楼下面馆".data).Perm
      (extract_keywords_with hashOrderB "午餐-楼下面馆".data) ∧
    (extract_keywords_with hashOrderA "午餐-楼下面馆".data).Nodup ∧
    (extract_keywords_with hashOrderB "午餐-楼下面馆".data).Nodup ∧
    (extract_rules_with hashOrderA c4Corpus 2 500).Perm
      (extract_rules_with hashOrderB c4Corpus 2 500) ∧
    extract_rules_with hashOrderA c4Corpus 2 500 ≠
      extract_rules_with hashOrderB c4Corpus 2 500 := by
  refine ⟨?_, ?_, ?_, ?_, ?_⟩ <;> decide

/-- C8, amended: under any one fixed keyword-set enumeration (one
process, one hash seed) mining is a pure function of the corpus; its
output is the stable descending sort of the candidate rules truncated to
`max_rules`, and rules tied on `(confidence, count)` keep the relative
first-encounter order of their keys under that enumeration.  Across runs
with different hash seeds only the set of mined rules is reproducible;
the relative order of tied rules is not (see the counterexample). -/
theorem c8_mining_stable_per_enumeration (ord : List Str → List Str)
    (records : List TxRecord) (min_count max_rules : Nat) :
    extract_rules_with ord records min_count max_rules
      = (sortedRules_with ord records min_count).take max_rules ∧
    (∀ a b : MinedRule, a.confidence = b.confidence → a.count = b.count →
      [a, b].Sublist (candidateRules_with ord records min_count) →
      [a, b].Sublist (sortedRules_with ord records min_count)) := by
  refine ⟨rfl, ?_⟩
  intro a b hconf hcount hsub
  exact List.pair_sublist_insertionSort
    (Or.inr ⟨hconf.symm, Nat.le_of_eq hcount.symm⟩) hsub

/-- C8, witness for `c8_mining_stable_per_enumeration` under the
reversed enumeration `hashOrderB`: the §8 corpus's tied rules keep that
enumeration's first-encounter order (`午餐-楼下` before `午餐-楼`) in
the sorted output. -/
theorem c8_mining_stable_per_enumeration_witness :
    ((mkRat 3 5 : ℚ) = mkRat 3 5 ∧ (3 : Nat) = 3) ∧
    [(⟨"午餐-楼下".data, "餐饮".data, "日常".data, "外食".data, mkRat 3 5, 3, 5⟩ : MinedRule),
     ⟨"午餐-楼".data, "餐饮".data, "日常".data, "外食".data, mkRat 3 5, 3, 5⟩].Sublist
      (candidateRules_with hashOrderB c4Corpus 2) ∧
    [(⟨"午餐-楼下".data, "餐饮".data, "日常".data, "外食".data, mkRat 3 5, 3, 5⟩ : MinedRule),
     ⟨"午餐-楼".data, "餐饮".data, "日常".data, "外食".data, mkRat 3 5, 3, 5⟩].Sublist
      (sortedRules_with hashOrderB c4Corpus 2) :=
  ⟨⟨rfl, rfl⟩, by decide,
    (c8_mining_stable_per_enumeration hashOrderB c4Corpus 2 500).2 _ _ rfl rfl (by decide)⟩

/-! Helper lemmas for the classifier. -/

theorem softmaxTop_single (p : Str) (s : ℝ) : softmaxTop [(p, s)] = [(p, 1)] := by
  unfold softmaxTop
  simp [sub_self, Real.exp_zero]

theorem softmaxTop_take_one (l : List (Str × ℝ)) (h : l ≠ []) :
    ∃ p, softmaxTop (l.take 1) = [(p, 1)] := by
  obtain ⟨x, xs, rfl⟩ := List.exists_cons_of_ne_nil h
  refine ⟨x.1, ?_⟩
  rw [List.take_succ_cons, List.take_zero]
  exact softmaxTop_single x.1 x.2

theorem predict_purpose_top1 (C : ExpenseClassifier) (note : Str) (category : Option Str)
    (ht : C.is_trained = true) (hd : C.purpose_doc_counts ≠ [])
    (htok : tokenize note ≠ []) :
    ∃ p, C.predict_purpose note category 1 = [(p, 1)] := by
  unfold ExpenseClassifier.predict_purpose
  simp only [ht, htok, hd, Bool.true_eq_false, false_or, if_neg, ite_false,
    not_false_iff, if_false]
  apply softmaxTop_take_one
  intro hempty
  apply hd
  have hperm := List.perm_insertionSort scoreDescRel
    (C.purpose_doc_counts.map (fun e => (e.1, purposeScore C category (tokenize note) e.1)))
  rw [hempty] at hperm
  exact List.map_eq_nil_iff.mp hperm.symm.eq_nil

theorem predict_subcat_top1 (C : ExpenseClassifier) (note : Str) (category : Option Str)
    (ht : C.is_trained = true) (hd : C.subcat_doc_counts ≠ [])
    (htok : tokenize note ≠ []) :
    ∃ p, C.predict_subcat note category 1 = [(p, 1)] := by
  unfold ExpenseClassifier.predict_subcat
  simp only [ht, htok, hd, Bool.true_eq_false, false_or, if_neg, ite_false,
    not_false_iff, if_false]
  apply softmaxTop_take_one
  intro hempty
  apply hd
  have hperm := List.perm_insertionSort scoreDescRel
    (C.subcat_doc_counts.map (fun e => (e.1, subcatScore C category (tokenize note) e.1)))
  rw [hempty] at hperm
  exact List.map_eq_nil_iff.mp hperm.symm.eq_nil

/-- C2, amended: because `predict` asks `predict_purpose`/`predict_subcat`
for `top_k = 1` and the softmax is computed over that single retained
score, the reported probability is always exactly 1 — so for every
trained classifier with at least one class per field and every note with
a non-empty token list (in particular a note all of whose tokens are
unseen in training), `predict` returns the top-ranked class for both
fields with confidence 1, which passes any threshold ≤ 1 (the default is
0.3); it never reports "no prediction" for such a note. -/
theorem c2_top1_softmax_degenerate (C : ExpenseClassifier) (note : Str)
    (category : Option Str) (threshold : ℝ) (hthr : threshold ≤ 1)
    (ht : C.is_trained = true) (hp : C.purpose_doc_counts ≠ [])
    (hs : C.subcat_doc_counts ≠ []) (htok : tokenize note ≠ []) :
    (∃ p, (C.predict note category threshold).purpose = some p) ∧
    (C.predict note category threshold).purpose_confidence = 1 ∧
    (∃ q, (C.predict note category threshold).subcat = some q) ∧
    (C.predict note category threshold).subcat_confidence = 1 := by
  obtain ⟨p, hp1⟩ := predict_purpose_top1 C note category ht hp htok
  obtain ⟨q, hq1⟩ := predict_subcat_top1 C note category ht hs htok
  unfold ExpenseClassifier.predict
  rw [hp1, hq1]
  simp [hthr]

theorem insertionSort_single (r : Str × ℝ → Str × ℝ → Prop) [DecidableRel r] (x : Str × ℝ) :
    List.insertionSort r [x] = [x] := rfl

theorem predict_purpose_single_class (C : ExpenseClassifier) (note : Str)
    (category : Option Str) (p : Str) (dc : Nat)
    (ht : C.is_trained = true) (hd : C.purpose_doc_counts = [(p, dc)])
    (htok : tokenize note ≠ []) :
    C.predict_purpose note category 1 = [(p, 1)] := by
  unfold ExpenseClassifier.predict_purpose
  simp only [ht, hd, htok, Bool.true_eq_false, false_or, ite_false, not_false_iff,
    if_false, if_neg, List.map_cons, List.map_nil, List.cons_ne_nil,
    insertionSort_single, List.take_succ_cons, List.take_zero]
  exact softmaxTop_single p _

/-- Training corpus for the C2 counterexample: a single expense record
whose note is `购物` — its vocabulary is `{购, 物}`. -/
def c2TrainRecords : List TrainRecord :=
  [⟨"购物".data, "家用".data, "日常".data, "用品".data, "支出".data⟩]

/-- The trained classifier of the C2 counterexample. -/
def c2Classifier : ExpenseClassifier := ExpenseClassifier.train c2TrainRecords


theorem predict_subcat_single_class (C : ExpenseClassifier) (note : Str)
    (category : Option Str) (p : Str) (dc : Nat)
    (ht : C.is_trained = true) (hd : C.subcat_doc_counts = [(p, dc)])
    (htok : tokenize note ≠ []) :
    C.predict_subcat note category 1 = [(p, 1)] := by
  unfold ExpenseClassifier.predict_subcat
  simp only [ht, hd, htok, Bool.true_eq_false, false_or, ite_false, not_false_iff,
    if_false, if_neg, List.map_cons, List.map_nil, List.cons_ne_nil,
    insertionSort_single, List.take_succ_cons, List.take_zero]
  exact softmaxTop_single p _

/-- C2, counterexample: the claim states that a note whose tokens are all
unseen in training gets no prediction (softmax probability below the 0.3
threshold); but for the classifier trained on one record with note `购物`
(vocabulary `{购, 物}`), the note `"abc"` — non-empty tokenization, every
token unseen — is assigned `(日常, 用品)` with confidence 1 for both
fields. -/
theorem c2_counterexample :
    (tokenize "abc".data ≠ []) ∧
    (∀ t ∈ tokenize "abc".data, t ∉ c2Classifier.purpose_vocab ∧ t ∉ c2Classifier.subcat_vocab) ∧
    (c2Classifier.predict "abc".data none (0.3 : ℝ)).purpose = some ("日常".data) ∧
    (c2Classifier.predict "abc".data none (0.3 : ℝ)).purpose_confidence = 1 ∧
    (c2Classifier.predict "abc".data none (0.3 : ℝ)).subcat = some ("用品".data) ∧
    (c2Classifier.predict "abc".data none (0.3 : ℝ)).subcat_confidence = 1 := by
  have hp := predict_purpose_single_class c2Classifier "abc".data none "日常".data 1
    (by decide) (by decide) (by decide)
  have hs := predict_subcat_single_class c2Classifier "abc".data none "用品".data 1
    (by decide) (by decide) (by decide)
  refine ⟨by decide, by decide, ?_⟩
  unfold ExpenseClassifier.predict
  rw [hp, hs]
  norm_num

/-- C2, witness for `c2_top1_softmax_degenerate`: the trained one-record
classifier and the all-unseen note `"abc"` with the default threshold
0.3. -/
theorem c2_top1_softmax_degenerate_witness :
    ((0.3 : ℝ) ≤ 1 ∧ c2Classifier.is_trained = true ∧
      c2Classifier.purpose_doc_counts ≠ [] ∧ c2Classifier.subcat_doc_counts ≠ [] ∧
      tokenize "abc".data ≠ []) ∧
    ((∃ p, (c2Classifier.predict "abc".data none (0.3 : ℝ)).purpose = some p) ∧
      (c2Classifier.predict "abc".data none (0.3 : ℝ)).purpose_confidence = 1 ∧
      (∃ q, (c2Classifier.predict "abc".data none (0.3 : ℝ)).subcat = some q) ∧
      (c2Classifier.predict "abc".data none (0.3 : ℝ)).subcat_confidence = 1) :=
  ⟨⟨by norm_num, by decide, by decide, by decide, by decide⟩,
    c2_top1_softmax_degenerate c2Classifier "abc".data none 0.3 (by norm_num)
      (by decide) (by decide) (by decide) (by decide)⟩

/-! Helper lemmas for the review-sync state machine. -/

theorem chunksOfAux_join {α : Type _} (n : Nat) :
    ∀ (fuel : Nat) (l : List α), l.length ≤ fuel → (chunksOfAux n fuel l).flatten = l := by
  intro fuel
  induction fuel with
  | zero =>
    intro l hl
    rw [List.length_eq_zero.mp (Nat.le_zero.mp hl)]
    rfl
  | succ fuel ih =>
    intro l hl
    cases l with
    | nil => rfl
    | cons x xs =>
      have hxs : xs.length ≤ fuel := by
        simp only [List.length_cons] at hl
        omega
      show ((x :: xs.take (n - 1)) :: chunksOfAux n fuel (xs.drop (n - 1))).flatten = x :: xs
      rw [List.flatten_cons, ih (xs.drop (n - 1)) (by rw [List.length_drop]; omega)]
      rw [List.cons_append, List.take_append_drop]

theorem chunksOf_flatten {α : Type _} (n : Nat) (l : List α) :
    (chunksOf n l).flatten = l :=
  chunksOfAux_join n l.length l (Nat.le_refl _)

theorem runSrcBatches_snd_no_raise (b : StoreBehavior)
    (hnr : ∀ i, b.srcRaises i = false) :
    ∀ (batches : List (List SyncUpd)) (i : Nat) (tbl : SourceTable),
    (runSrcBatches b batches i tbl).2 =
      batches.flatten.map (fun u => u.reviewRowId) := by
  intro batches
  induction batches with
  | nil => intro i tbl; rfl
  | cons batch rest ih =>
    intro i tbl
    unfold runSrcBatches
    rw [hnr i]
    simp only [Bool.false_eq_true, if_false]
    rw [List.flatten_cons, List.map_append]
    exact congrArg _ (ih (i + 1) _)

theorem runSrcBatches_fst_allOk (b : StoreBehavior)
    (hnr : ∀ i, b.srcRaises i = false) (hbt : ∀ i, b.srcBatchOk i = true) :
    ∀ (batches : List (List SyncUpd)) (i : Nat) (tbl : SourceTable),
    (runSrcBatches b batches i tbl).1 = batches.flatten.foldl applySrcUpd tbl := by
  intro batches
  induction batches with
  | nil => intro i tbl; rfl
  | cons batch rest ih =>
    intro i tbl
    unfold runSrcBatches
    rw [hnr i]
    simp only [Bool.false_eq_true, if_false]
    rw [List.flatten_cons, List.foldl_append]
    unfold applySrcBatch
    rw [hbt i]
    simp only [if_true]
    exact ih (i + 1) _

theorem runSrcBatches_fst_fallback (b : StoreBehavior)
    (hnr : ∀ i, b.srcRaises i = false) (hbf : ∀ i, b.srcBatchOk i = false) :
    ∀ (batches : List (List SyncUpd)) (i : Nat) (tbl : SourceTable),
    (runSrcBatches b batches i tbl).1 =
      batches.flatten.foldl
        (fun t u => if b.srcRowOk u.recordId then applySrcUpd t u else t) tbl := by
  intro batches
  induction batches with
  | nil => intro i tbl; rfl
  | cons batch rest ih =>
    intro i tbl
    unfold runSrcBatches
    rw [hnr i]
    simp only [Bool.false_eq_true, if_false]
    rw [List.flatten_cons, List.foldl_append]
    unfold applySrcBatch
    rw [hbf i]
    simp only [Bool.false_eq_true, if_false]
    exact ih (i + 1) _

theorem runRevBatches_allOk (b : StoreBehavior)
    (hnr : ∀ i, b.revRaises i = false) (hbt : ∀ i, b.revBatchOk i = true) :
    ∀ (batches : List (List Str)) (i : Nat) (review : List ReviewRow),
    runRevBatches b batches i review = batches.flatten.foldl applyRevStatus review := by
  intro batches
  induction batches with
  | nil => intro i review; rfl
  | cons batch rest ih =>
    intro i review
    unfold runRevBatches
    rw [hnr i, hbt i]
    simp only [Bool.false_eq_true, if_false, if_true]
    rw [List.flatten_cons, List.foldl_append]
    exact ih (i + 1) _

theorem setSynced_rowId (r : ReviewRow) : (setSynced r).rowId = r.rowId := rfl

theorem setSynced_idem (r : ReviewRow) : setSynced (setSynced r) = setSynced r := rfl

theorem foldl_applyRevStatus (rids : List Str) (review : List ReviewRow) :
    rids.foldl applyRevStatus review =
      review.map (fun r => if r.rowId ∈ rids then setSynced r else r) := by
  induction rids generalizing review with
  | nil => simp
  | cons rid rids ih =>
    rw [List.foldl_cons, ih]
    unfold applyRevStatus
    rw [List.map_map]
    apply List.map_congr_left
    intro r _
    by_cases h1 : r.rowId = rid
    · rw [Function.comp_apply, if_pos h1]
      by_cases h2 : r.rowId ∈ rids
      · rw [if_pos (by rw [setSynced_rowId]; exact h2), setSynced_idem,
          if_pos (List.mem_cons_of_mem rid h2)]
      · rw [if_neg (by rw [setSynced_rowId]; exact h2),
          if_pos (List.mem_cons.mpr (Or.inl h1))]
    · rw [Function.comp_apply, if_neg h1]
      by_cases h2 : r.rowId ∈ rids
      · rw [if_pos h2, if_pos (List.mem_cons_of_mem rid h2)]
      · rw [if_neg h2, if_neg (by
          intro hmem
          rcases List.mem_cons.mp hmem with h | h
          · exact h1 h
          · exact h2 h)]

/-- Reading one source row by record id (`none` when the id is absent);
an observer for stating what sync wrote, not part of the source. -/
def lookupSrc : SourceTable → Str → Option SourceFields
  | [], _ => none
  | e :: tbl, k => if e.1 = k then some e.2 else lookupSrc tbl k

theorem lookupSrc_applySrcUpd (u : SyncUpd) (k : Str) : ∀ tbl : SourceTable,
    lookupSrc (applySrcUpd tbl u) k =
      if k = u.recordId then (lookupSrc tbl k).map (fun f => applyUpdFields f u)
      else lookupSrc tbl k := by
  intro tbl
  induction tbl with
  | nil => simp [lookupSrc, applySrcUpd]
  | cons e tbl ih =>
    show lookupSrc
        ((if e.1 = u.recordId then (e.1, applyUpdFields e.2 u) else e) :: applySrcUpd tbl u) k
      = _
    have hkey : (if e.1 = u.recordId then (e.1, applyUpdFields e.2 u) else e).1 = e.1 := by
      split <;> rfl
    by_cases h1 : e.1 = k
    · subst h1
      by_cases h2 : e.1 = u.recordId <;> simp [lookupSrc, hkey, h2]
    · by_cases h2 : e.1 = u.recordId
      · have h3 : ¬u.recordId = k := h2 ▸ h1
        have h4 : ¬k = u.recordId := fun hh => h3 hh.symm
        simp [lookupSrc, hkey, h1, h2, h3, h4, ih]
      · simp [lookupSrc, hkey, h1, h2, ih]

theorem lookupSrc_foldl_not_mem (k : Str) :
    ∀ (upds : List SyncUpd) (tbl : SourceTable),
    k ∉ upds.map (fun u => u.recordId) →
    lookupSrc (upds.foldl applySrcUpd tbl) k = lookupSrc tbl k := by
  intro upds
  induction upds with
  | nil => intro tbl _; rfl
  | cons u us ih =>
    intro tbl hk
    rw [List.foldl_cons, ih (applySrcUpd tbl u)
      (fun hmem => hk (List.mem_cons_of_mem _ hmem)),
      lookupSrc_applySrcUpd,
      if_neg (fun hh => hk (by rw [List.map_cons, hh]; exact List.mem_cons_self _ _))]

theorem lookupSrc_foldl_targeted (u : SyncUpd) :
    ∀ (upds : List SyncUpd) (tbl : SourceTable), u ∈ upds →
    (upds.map (fun v => v.recordId)).Nodup →
    lookupSrc (upds.foldl applySrcUpd tbl) u.recordId =
      (lookupSrc tbl u.recordId).map (fun f => applyUpdFields f u) := by
  intro upds
  induction upds with
  | nil => intro tbl hu; exact absurd hu (List.not_mem_nil u)
  | cons v vs ih =>
    intro tbl hu hnd
    rw [List.map_cons, List.nodup_cons] at hnd
    rcases List.mem_cons.mp hu with h | h
    · subst h
      rw [List.foldl_cons,
        lookupSrc_foldl_not_mem u.recordId vs (applySrcUpd tbl u) hnd.1,
        lookupSrc_applySrcUpd, if_pos rfl]
    · have hne : v.recordId ≠ u.recordId := by
        intro hh
        exact hnd.1 (hh ▸ List.mem_map_of_mem (fun w => w.recordId) h)
      rw [List.foldl_cons, ih (applySrcUpd tbl v) h hnd.2,
        lookupSrc_applySrcUpd, if_neg (fun hh => hne hh.symm)]

theorem foldl_conditional_filter (p : SyncUpd → Bool) :
    ∀ (upds : List SyncUpd) (tbl : SourceTable),
    upds.foldl (fun t u => if p u then applySrcUpd t u else t) tbl =
      (upds.filter p).foldl applySrcUpd tbl := by
  intro upds
  induction upds with
  | nil => intro tbl; rfl
  | cons u us ih =>
    intro tbl
    rw [List.foldl_cons]
    by_cases hp : p u
    · rw [if_pos hp, List.filter_cons_of_pos hp, List.foldl_cons, ih]
    · rw [if_neg hp, List.filter_cons_of_neg (by simpa using hp), ih]

theorem toSyncUpd_confirmed (r : ReviewRow)
    (hst : trimStr r.fields.status = "已确认".data)
    (hid : trimStr r.fields.recordId ≠ [])
    (hf : trimStr r.fields.finalPurpose ≠ [] ∨ trimStr r.fields.finalSubcat ≠ []) :
    toSyncUpd r = some ⟨trimStr r.fields.recordId, trimStr r.fields.finalPurpose,
      trimStr r.fields.finalSubcat, r.rowId⟩ := by
  simp only [toSyncUpd]
  rw [if_neg (by simp [hst]), if_neg hid, if_neg (by
    intro hh
    rcases hf with h | h
    · exact h hh.1
    · exact h hh.2)]

theorem toSyncUpd_not_confirmed (r : ReviewRow)
    (hst : trimStr r.fields.status ≠ "已确认".data) : toSyncUpd r = none := by
  simp only [toSyncUpd]
  rw [if_pos hst]

theorem toSyncUpd_inv (r : ReviewRow) (u : SyncUpd) (h : toSyncUpd r = some u) :
    trimStr r.fields.status = "已确认".data ∧ u.reviewRowId = r.rowId := by
  simp only [toSyncUpd] at h
  split_ifs at h with h1 h2 h3
  · obtain rfl := (Option.some.inj h).symm
    exact ⟨Decidable.not_not.mp h1, rfl⟩

theorem sync_noraise_review (b : StoreBehavior)
    (hsr : ∀ i, b.srcRaises i = false) (hrr : ∀ i, b.revRaises i = false)
    (hrb : ∀ i, b.revBatchOk i = true) (s : SyncState)
    (hne : collectUpdates s.review ≠ []) :
    (sync_from_review b 100 s).review =
      s.review.map (fun r =>
        if r.rowId ∈ (collectUpdates s.review).map (fun u => u.reviewRowId)
        then setSynced r else r) := by
  simp only [sync_from_review]
  rw [if_neg hne]
  show runRevBatches b
      (chunksOf 100 (runSrcBatches b (chunksOf 100 (collectUpdates s.review)) 0 s.source).2)
      0 s.review = _
  rw [runSrcBatches_snd_no_raise b hsr, chunksOf_flatten,
    runRevBatches_allOk b hrr hrb, chunksOf_flatten, foldl_applyRevStatus]

theorem sync_allOk_source (b : StoreBehavior)
    (hsr : ∀ i, b.srcRaises i = false) (hbt : ∀ i, b.srcBatchOk i = true)
    (s : SyncState) (hne : collectUpdates s.review ≠ []) :
    (sync_from_review b 100 s).source =
      (collectUpdates s.review).foldl applySrcUpd s.source := by
  simp only [sync_from_review]
  rw [if_neg hne]
  show (runSrcBatches b (chunksOf 100 (collectUpdates s.review)) 0 s.source).1 = _
  rw [runSrcBatches_fst_allOk b hsr hbt, chunksOf_flatten]

theorem sync_fallback_source (b : StoreBehavior)
    (hsr : ∀ i, b.srcRaises i = false) (hbf : ∀ i, b.srcBatchOk i = false)
    (s : SyncState) (hne : collectUpdates s.review ≠ []) :
    (sync_from_review b 100 s).source =
      ((collectUpdates s.review).filter (fun u => b.srcRowOk u.recordId)).foldl
        applySrcUpd s.source := by
  simp only [sync_from_review]
  rw [if_neg hne]
  show (runSrcBatches b (chunksOf 100 (collectUpdates s.review)) 0 s.source).1 = _
  rw [runSrcBatches_fst_fallback b hsr hbf, chunksOf_flatten,
    foldl_conditional_filter]

theorem rowId_mem_updates_iff (review : List ReviewRow)
    (hnodup : (review.map (fun r => r.rowId)).Nodup)
    (hgood : ∀ r ∈ review, trimStr r.fields.status = "已确认".data →
      trimStr r.fields.recordId ≠ [] ∧
      (trimStr r.fields.finalPurpose ≠ [] ∨ trimStr r.fields.finalSubcat ≠ []))
    (r : ReviewRow) (hr : r ∈ review) :
    r.rowId ∈ (collectUpdates review).map (fun u => u.reviewRowId) ↔
      trimStr r.fields.status = "已确认".data := by
  constructor
  · intro hmem
    obtain ⟨u, hu, huid⟩ := List.mem_map.mp hmem
    obtain ⟨r', hr', hru⟩ := List.mem_filterMap.mp hu
    obtain ⟨hst', hrow⟩ := toSyncUpd_inv r' u hru
    have heq : r' = r := List.inj_on_of_nodup_map hnodup hr' hr (by rw [← hrow, huid])
    exact heq ▸ hst'
  · intro hst
    obtain ⟨hid, hf⟩ := hgood r hr hst
    exact List.mem_map.mpr
      ⟨_, List.mem_filterMap.mpr ⟨r, hr, toSyncUpd_confirmed r hst hid hf⟩, rfl⟩

/-- The store behaviour in which every remote operation succeeds. -/
def allOkBehavior : StoreBehavior :=
  { srcRaises := fun _ => false, srcBatchOk := fun _ => true, srcRowOk := fun _ => true,
    revRaises := fun _ => false, revBatchOk := fun _ => true, revRowOk := fun _ => true }

/-- As long as no `batch_update_records` call raises and the review-table
status updates go through, one sync run sets exactly the confirmed rows'
status to 已同步 — independently of any per-row write-back failures
reported by the fallback — and leaves every other row untouched. -/
theorem sync_review_marks_confirmed (b : StoreBehavior)
    (hsr : ∀ i, b.srcRaises i = false) (hrr : ∀ i, b.revRaises i = false)
    (hrb : ∀ i, b.revBatchOk i = true) (s : SyncState)
    (hnodup : (s.review.map (fun r => r.rowId)).Nodup)
    (hgood : ∀ r ∈ s.review, trimStr r.fields.status = "已确认".data →
      trimStr r.fields.recordId ≠ [] ∧
      (trimStr r.fields.finalPurpose ≠ [] ∨ trimStr r.fields.finalSubcat ≠ [])) :
    (sync_from_review b 100 s).review =
      s.review.map (fun r =>
        if trimStr r.fields.status = "已确认".data then setSynced r else r) := by
  by_cases hne : collectUpdates s.review = []
  · have hnoconf : ∀ r ∈ s.review, ¬trimStr r.fields.status = "已确认".data := by
      intro r hr hst
      obtain ⟨hid, hf⟩ := hgood r hr hst
      have hmem : (⟨trimStr r.fields.recordId, trimStr r.fields.finalPurpose,
          trimStr r.fields.finalSubcat, r.rowId⟩ : SyncUpd) ∈ collectUpdates s.review :=
        List.mem_filterMap.mpr ⟨r, hr, toSyncUpd_confirmed r hst hid hf⟩
      rw [hne] at hmem
      exact List.not_mem_nil _ hmem
    have hsync : sync_from_review b 100 s = s := by
      simp only [sync_from_review]
      rw [if_pos hne]
    rw [hsync]
    symm
    calc s.review.map (fun r =>
          if trimStr r.fields.status = "已确认".data then setSynced r else r)
        = s.review.map (fun r => r) :=
          List.map_congr_left (fun r hr => if_neg (hnoconf r hr))
      _ = s.review := List.map_id' s.review
  · rw [sync_noraise_review b hsr hrr hrb s hne]
    apply List.map_congr_left
    intro r hr
    by_cases hst : trimStr r.fields.status = "已确认".data
    · rw [if_pos ((rowId_mem_updates_iff s.review hnodup hgood r hr).mpr hst),
        if_pos hst]
    · rw [if_neg (fun hmem =>
        hst ((rowId_mem_updates_iff s.review hnodup hgood r hr).mp hmem)), if_neg hst]

/-- C6: with every store operation succeeding, one sync run flips exactly
the confirmed rows' status to 已同步 and leaves all other rows untouched;
it writes each confirmed row's final fields to its source record once,
leaves every non-targeted source record unchanged; and a second sync run
on the resulting state is a strict no-op (the synced state is a fixed
point), so re-running sync is idempotent. -/
theorem c6_sync_idempotent (s : SyncState)
    (hnodup : (s.review.map (fun r => r.rowId)).Nodup)
    (hrids : ((collectUpdates s.review).map (fun u => u.recordId)).Nodup)
    (hgood : ∀ r ∈ s.review, trimStr r.fields.status = "已确认".data →
      trimStr r.fields.recordId ≠ [] ∧
      (trimStr r.fields.finalPurpose ≠ [] ∨ trimStr r.fields.finalSubcat ≠ [])) :
    ((sync_from_review allOkBehavior 100 s).review =
      s.review.map (fun r =>
        if trimStr r.fields.status = "已确认".data then setSynced r else r)) ∧
    (∀ r ∈ s.review, trimStr r.fields.status = "已确认".data →
      lookupSrc (sync_from_review allOkBehavior 100 s).source (trimStr r.fields.recordId) =
        (lookupSrc s.source (trimStr r.fields.recordId)).map
          (fun f => applyUpdFields f ⟨trimStr r.fields.recordId,
            trimStr r.fields.finalPurpose, trimStr r.fields.finalSubcat, r.rowId⟩)) ∧
    (∀ k, k ∉ (collectUpdates s.review).map (fun u => u.recordId) →
      lookupSrc (sync_from_review allOkBehavior 100 s).source k = lookupSrc s.source k) ∧
    sync_from_review allOkBehavior 100 (sync_from_review allOkBehavior 100 s) =
      sync_from_review allOkBehavior 100 s := by
  have hrev' := sync_review_marks_confirmed allOkBehavior (fun _ => rfl) (fun _ => rfl)
    (fun _ => rfl) s hnodup hgood
  refine ⟨hrev', ?_, ?_, ?_⟩
  · intro r hr hst
    obtain ⟨hid, hf⟩ := hgood r hr hst
    have hu : (⟨trimStr r.fields.recordId, trimStr r.fields.finalPurpose,
        trimStr r.fields.finalSubcat, r.rowId⟩ : SyncUpd) ∈ collectUpdates s.review :=
      List.mem_filterMap.mpr ⟨r, hr, toSyncUpd_confirmed r hst hid hf⟩
    have hne : collectUpdates s.review ≠ [] := by
      intro hh
      rw [hh] at hu
      exact List.not_mem_nil _ hu
    rw [sync_allOk_source allOkBehavior (fun _ => rfl) (fun _ => rfl) s hne]
    exact lookupSrc_foldl_targeted _ _ s.source hu hrids
  · intro k hk
    by_cases hne : collectUpdates s.review = []
    · have hsync : sync_from_review allOkBehavior 100 s = s := by
        simp only [sync_from_review]
        rw [if_pos hne]
      rw [hsync]
    · rw [sync_allOk_source allOkBehavior (fun _ => rfl) (fun _ => rfl) s hne]
      exact lookupSrc_foldl_not_mem k _ s.source hk
  · have h2 : collectUpdates (sync_from_review allOkBehavior 100 s).review = [] := by
      rw [hrev', collectUpdates, List.filterMap_map]
      apply List.filterMap_eq_nil_iff.mpr
      intro r _
      by_cases hst : trimStr r.fields.status = "已确认".data
      · simp only [Function.comp_apply, if_pos hst]
        exact toSyncUpd_not_confirmed (setSynced r)
          (show trimStr "已同步".data ≠ "已确认".data by decide)
      · simp only [Function.comp_apply, if_neg hst]
        exact toSyncUpd_not_confirmed r hst
    conv_lhs => rw [sync_from_review]
    simp [h2]

/-- Concrete state for the C6 witness: one confirmed row targeting
`recA`, one pending row, over a two-record source table. -/
def c6State : SyncState :=
  { source := [("recA".data, ⟨[], []⟩), ("recB".data, ⟨"旧".data, "旧".data⟩)],
    review := [⟨"ra".data, ⟨"recA".data, "日常".data, "外食".data, "已确认".data⟩⟩,
               ⟨"rb".data, ⟨"recB".data, "社交".data, "聚餐".data, "待审核".data⟩⟩] }

/-- C6, witness for `c6_sync_idempotent` at `c6State`. -/
theorem c6_sync_idempotent_witness :
    ((c6State.review.map (fun r => r.rowId)).Nodup ∧
      ((collectUpdates c6State.review).map (fun u => u.recordId)).Nodup ∧
      (∀ r ∈ c6State.review, trimStr r.fields.status = "已确认".data →
        trimStr r.fields.recordId ≠ [] ∧
        (trimStr r.fields.finalPurpose ≠ [] ∨ trimStr r.fields.finalSubcat ≠ []))) ∧
    (((sync_from_review allOkBehavior 100 c6State).review =
      c6State.review.map (fun r =>
        if trimStr r.fields.status = "已确认".data then setSynced r else r)) ∧
    (∀ r ∈ c6State.review, trimStr r.fields.status = "已确认".data →
      lookupSrc (sync_from_review allOkBehavior 100 c6State).source (trimStr r.fields.recordId) =
        (lookupSrc c6State.source (trimStr r.fields.recordId)).map
          (fun f => applyUpdFields f ⟨trimStr r.fields.recordId,
            trimStr r.fields.finalPurpose, trimStr r.fields.finalSubcat, r.rowId⟩)) ∧
    (∀ k, k ∉ (collectUpdates c6State.review).map (fun u => u.recordId) →
      lookupSrc (sync_from_review allOkBehavior 100 c6State).source k =
        lookupSrc c6State.source k) ∧
    sync_from_review allOkBehavior 100 (sync_from_review allOkBehavior 100 c6State) =
      sync_from_review allOkBehavior 100 c6State) :=
  ⟨⟨by decide, by decide, by decide⟩,
    c6_sync_idempotent c6State (by decide) (by decide) (by decide)⟩

/-- Store behaviour for the C1 counterexample: the batch call returns an
error code (so the per-row fallback runs) without raising; the fallback
succeeds for `recB` and fails for `recA`; review-status updates
succeed. -/
def c1Behavior : StoreBehavior :=
  { srcRaises := fun _ => false, srcBatchOk := fun _ => false,
    srcRowOk := fun rid => rid == "recB".data,
    revRaises := fun _ => false, revBatchOk := fun _ => true, revRowOk := fun _ => true }

/-- Concrete state for the C1 counterexample: two confirmed rows in the
same batch. -/
def c1State : SyncState :=
  { source := [("recA".data, ⟨[], []⟩), ("recB".data, ⟨[], []⟩)],
    review := [⟨"ra".data, ⟨"recA".data, "日常".data, "外食".data, "已确认".data⟩⟩,
               ⟨"rb".data, ⟨"recB".data, "社交".data, "聚餐".data, "已确认".data⟩⟩] }

/-- C1, counterexample: the claim says a confirmed item whose write-back
fails stays 已确认 so that a later run retries it.  In `c1State`, row
`ra`'s write-back fails in the per-row fallback (its source record
`recA` is unchanged) while row `rb` of the same batch is written — yet
BOTH review rows end up 已同步: the failed item does not stay 已确认 and
is not retried. -/
theorem c1_counterexample :
    lookupSrc (sync_from_review c1Behavior 100 c1State).source "recA".data
      = some ⟨[], []⟩ ∧
    lookupSrc (sync_from_review c1Behavior 100 c1State).source "recB".data
      = some ⟨"社交".data, "聚餐".data⟩ ∧
    (sync_from_review c1Behavior 100 c1State).review =
      [⟨"ra".data, ⟨"recA".data, "日常".data, "外食".data, "已同步".data⟩⟩,
       ⟨"rb".data, ⟨"recB".data, "社交".data, "聚餐".data, "已同步".data⟩⟩] := by
  refine ⟨?_, ?_, ?_⟩ <;> decide

/-- C1, amended: when the batch update call fails without raising (error
code or network exception inside the call) the per-row fallback runs:
rows whose individual update succeeds are written back and a row's
failure does not block the other rows of the batch; but `sync_from_review`
then queues EVERY row of the batch for the 已同步 status change
regardless of the per-row `failed` count, so a confirmed item whose
write-back failed is still marked 已同步 (not left 已确认) and a
subsequent sync run does not retry it. -/
theorem c1_sync_failure_handling (b : StoreBehavior) (s : SyncState)
    (hsr : ∀ i, b.srcRaises i = false) (hbf : ∀ i, b.srcBatchOk i = false)
    (hrr : ∀ i, b.revRaises i = false) (hrb : ∀ i, b.revBatchOk i = true)
    (hnodup : (s.review.map (fun r => r.rowId)).Nodup)
    (hrids : ((collectUpdates s.review).map (fun u => u.recordId)).Nodup)
    (hgood : ∀ r ∈ s.review, trimStr r.fields.status = "已确认".data →
      trimStr r.fields.recordId ≠ [] ∧
      (trimStr r.fields.finalPurpose ≠ [] ∨ trimStr r.fields.finalSubcat ≠ [])) :
    ((sync_from_review b 100 s).review =
      s.review.map (fun r =>
        if trimStr r.fields.status = "已确认".data then setSynced r else r)) ∧
    (∀ u ∈ collectUpdates s.review,
      lookupSrc (sync_from_review b 100 s).source u.recordId =
        if b.srcRowOk u.recordId = true then
          (lookupSrc s.source u.recordId).map (fun f => applyUpdFields f u)
        else lookupSrc s.source u.recordId) := by
  refine ⟨sync_review_marks_confirmed b hsr hrr hrb s hnodup hgood, ?_⟩
  intro u hu
  have hne : collectUpdates s.review ≠ [] := by
    intro hh
    rw [hh] at hu
    exact List.not_mem_nil _ hu
  rw [sync_fallback_source b hsr hbf s hne]
  have hfsub : List.Sublist
      (((collectUpdates s.review).filter (fun u => b.srcRowOk u.recordId)).map
        (fun v => v.recordId))
      ((collectUpdates s.review).map (fun v => v.recordId)) :=
    List.Sublist.map _ (List.filter_sublist _)
  by_cases hok : b.srcRowOk u.recordId = true
  · rw [if_pos hok]
    exact lookupSrc_foldl_targeted u _ s.source
      (List.mem_filter.mpr ⟨hu, hok⟩) (hrids.sublist hfsub)
  · rw [if_neg hok]
    apply lookupSrc_foldl_not_mem
    intro hmem
    obtain ⟨v, hv, hvid⟩ := List.mem_map.mp hmem
    have hvu : v = u := List.inj_on_of_nodup_map hrids
      (List.mem_of_mem_filter hv) hu hvid
    exact hok (hvu ▸ (List.mem_filter.mp hv).2)

/-- C1, witness for `c1_sync_failure_handling` at the counterexample
state: both confirmed rows are marked 已同步; `recB`'s record is written
while `recA`'s stays unchanged. -/
theorem c1_sync_failure_handling_witness :
    ((∀ i : Nat, c1Behavior.srcRaises i = false) ∧
      (∀ i : Nat, c1Behavior.srcBatchOk i = false) ∧
      (∀ i : Nat, c1Behavior.revRaises i = false) ∧
      (∀ i : Nat, c1Behavior.revBatchOk i = true) ∧
      (c1State.review.map (fun r => r.rowId)).Nodup ∧
      ((collectUpdates c1State.review).map (fun u => u.recordId)).Nodup ∧
      (∀ r ∈ c1State.review, trimStr r.fields.status = "已确认".data →
        trimStr r.fields.recordId ≠ [] ∧
        (trimStr r.fields.finalPurpose ≠ [] ∨ trimStr r.fields.finalSubcat ≠ []))) ∧
    (((sync_from_review c1Behavior 100 c1State).review =
      c1State.review.map (fun r =>
        if trimStr r.fields.status = "已确认".data then setSynced r else r)) ∧
    (∀ u ∈ collectUpdates c1State.review,
      lookupSrc (sync_from_review c1Behavior 100 c1State).source u.recordId =
        if c1Behavior.srcRowOk u.recordId = true then
          (lookupSrc c1State.source u.recordId).map (fun f => applyUpdFields f u)
        else lookupSrc c1State.source u.recordId)) :=
  ⟨⟨fun _ => rfl, fun _ => rfl, fun _ => rfl, fun _ => rfl,
      by decide, by decide, by decide⟩,
    c1_sync_failure_handling c1Behavior c1State (fun _ => rfl) (fun _ => rfl)
      (fun _ => rfl) (fun _ => rfl) (by decide) (by decide) (by decide)⟩
